import Mathlib

/-!
Verification of the identity-normalization and query-dispatch layer of the
outscraper-api business-lookup service.

The Python sources under `app/utils/normalization.py`,
`app/utils/query_builders.py` and `app/api/v1/outscraper/business.py` are
shallowly embedded below.  Python strings are modelled as `List Char`
(wrapped in `String` at the API boundary); Python's `None`-or-string results
become `Option`.  Case folding and whitespace stripping are modelled on the
ASCII range, matching the specification's stipulation that all comparisons
and case folding are ASCII-only.  The fragment of `urllib.parse.urlparse`
that the normalizers consult (netloc and path) is embedded from CPython's
`urlsplit`/`urlparse` (3.10 semantics); the `ValueError` it can raise on
mismatched IPv6 brackets is modelled as `none`, mirroring the
`except`-clauses in the source that turn it into a rejection.
-/

namespace Outscraper

/-! ### ASCII character classes and Python string primitives -/

/-- The characters stripped by Python's `str.strip()`, restricted to ASCII. -/
def isPySpace (c : Char) : Bool :=
  c = ' ' || c = '\t' || c = '\n' || c = '\r' || c = '\x0b' || c = '\x0c'

/-- ASCII lowercase letter `a`-`z`. -/
def isAsciiLowerAlpha (c : Char) : Bool :=
  97 ≤ c.toNat && c.toNat ≤ 122

/-- ASCII uppercase letter `A`-`Z`. -/
def isAsciiUpperAlpha (c : Char) : Bool :=
  65 ≤ c.toNat && c.toNat ≤ 90

/-- ASCII letter. -/
def isAsciiAlpha (c : Char) : Bool :=
  isAsciiLowerAlpha c || isAsciiUpperAlpha c

/-- ASCII digit `0`-`9`. -/
def isAsciiDigit (c : Char) : Bool :=
  48 ≤ c.toNat && c.toNat ≤ 57

/-- Lowercase letter or digit: the alphanumerics accepted by the lowercased
domain regex of `normalize_domain`. -/
def isLowerAlnum (c : Char) : Bool :=
  isAsciiLowerAlpha c || isAsciiDigit c

/-- `str.lower()` on one character (ASCII range). -/
def lowerChar (c : Char) : Char :=
  if 65 ≤ c.toNat ∧ c.toNat ≤ 90 then Char.ofNat (c.toNat + 32) else c

/-- `str.lower()` (ASCII model). -/
def pyLower (l : List Char) : List Char := l.map lowerChar

/-- Remove trailing characters drawn from the set `p` (`str.rstrip`). -/
def pyRStrip (p : Char → Bool) (l : List Char) : List Char :=
  (l.reverse.dropWhile p).reverse

/-- `str.strip()` with no argument: drop leading and trailing whitespace. -/
def pyStrip (l : List Char) : List Char :=
  pyRStrip isPySpace (l.dropWhile isPySpace)

/-- Substring containment test: does `pat` occur contiguously in `l`? -/
def containsSeq (pat l : List Char) : Bool :=
  l.tails.any (fun t => pat.isPrefixOf t)

/-! ### CPython `urllib.parse` fragment

`normalize_domain` and `normalize_linkedin_url` call `urlparse` only when the
input contains `"://"`, and read only `netloc` and `path` from the result.
The embedding below follows CPython's `urlsplit` (tab/CR/LF removal, scheme
recognition, netloc delimitation, fragment/query split, IPv6-bracket
`ValueError`) and `urlparse`'s parameter split for schemes in `uses_params`. -/

/-- Bytes removed from a URL before parsing (CPython `_UNSAFE_URL_BYTES_TO_REMOVE`). -/
def isUnsafeUrlChar (c : Char) : Bool :=
  c = '\t' || c = '\r' || c = '\n'

/-- Characters allowed in a URL scheme after the first (CPython `scheme_chars`). -/
def isSchemeChar (c : Char) : Bool :=
  isAsciiAlpha c || isAsciiDigit c || c = '+' || c = '-' || c = '.'

/-- Split a leading `scheme:` off a URL, as CPython's `urlsplit` does:
the text before the first `:` must be nonempty, start with an ASCII letter,
and consist of scheme characters; otherwise no scheme is recognized.
Returns the lowercased scheme and the remainder. -/
def splitScheme (url : List Char) : List Char × List Char :=
  let pre := url.takeWhile (· ≠ ':')
  if pre.length < url.length && !pre.isEmpty &&
      isAsciiAlpha (pre.headD ' ') && pre.all isSchemeChar then
    (pyLower pre, url.drop (pre.length + 1))
  else ([], url)

/-- CPython raises `ValueError` when exactly one of `[`, `]` occurs in the netloc. -/
def bracketMismatch (netloc : List Char) : Bool :=
  (netloc.contains '[' && !netloc.contains ']') ||
    (netloc.contains ']' && !netloc.contains '[')

/-- Extract the netloc when the remainder starts with `//`; it extends to the
first `/`, `?` or `#`.  `none` models the `ValueError` on mismatched brackets. -/
def splitNetloc (url : List Char) : Option (List Char × List Char) :=
  if url.take 2 = ['/', '/'] then
    let rest := url.drop 2
    let netloc := rest.takeWhile (fun c => !(c = '/' || c = '?' || c = '#'))
    if bracketMismatch netloc then none
    else some (netloc, rest.drop netloc.length)
  else some ([], url)

/-- Schemes for which `urlparse` splits `;parameters` off the path
(CPython `uses_params`; `''` is the no-scheme case). -/
def usesParams (scheme : List Char) : Bool :=
  [ "", "ftp", "hdl", "prospero", "http", "imap", "https", "shttp", "rtsp",
    "rtspu", "sip", "sips", "mms", "sftp", "tel"
  ].any (fun s => scheme = s.data)

/-- CPython `_splitparams`: cut the path at the first `;` that occurs at or
after the last `/` (or at the first `;` at all when the path has no `/`);
only called when the path does contain a `;`. -/
def splitParams (path : List Char) : List Char :=
  if path.contains '/' then
    let tl := (path.reverse.takeWhile (· ≠ '/')).reverse
    let pre := (path.reverse.dropWhile (· ≠ '/')).reverse
    if tl.contains ';' then pre ++ tl.takeWhile (· ≠ ';') else path
  else path.takeWhile (· ≠ ';')

/-- The `(netloc, path)` pair of CPython `urlparse`, or `none` for the
`ValueError` that the callers catch.  The fragment (after the first `#`) and
the query (after the first `?`) are dropped from the path, and `;parameters`
are split off for schemes in `uses_params`. -/
def pyUrlparseNetlocPath (url0 : List Char) : Option (List Char × List Char) :=
  let url1 := url0.filter (fun c => !isUnsafeUrlChar c)
  let sp := splitScheme url1
  match splitNetloc sp.2 with
  | none => none
  | some (netloc, u3) =>
    let p0 := u3.takeWhile (fun c => !(c = '#' || c = '?'))
    let path := if usesParams sp.1 && p0.contains ';' then splitParams p0 else p0
    some (netloc, path)

/-! ### `normalize_domain` -/

/-- A character of a (lowercased) DNS label: `[a-z0-9-]`. -/
def isLabelChar (c : Char) : Bool :=
  isLowerAlnum c || c = '-'

/-- Split on `.`, keeping empty pieces — `"a..b"` gives `["a", "", "b"]`. -/
def splitOnDot : List Char → List (List Char)
  | [] => [[]]
  | c :: rest =>
    if c = '.' then [] :: splitOnDot rest
    else
      match splitOnDot rest with
      | [] => [[c]]
      | h :: t => (c :: h) :: t

/-- One DNS label of the validation regex:
`[a-z0-9]([a-z0-9\-]{0,61}[a-z0-9])?` — nonempty, at most 63 characters,
alphanumeric/hyphen, first and last character alphanumeric. -/
def isDomainLabel (l : List Char) : Bool :=
  !l.isEmpty && l.length ≤ 63 && l.all isLabelChar &&
    isLowerAlnum (l.headD '-') && isLowerAlnum (l.getLastD '-')

/-- The final validation regex of `normalize_domain`:
`^[a-z0-9]([a-z0-9\-]{0,61}[a-z0-9])?(\.[a-z0-9]([a-z0-9\-]{0,61}[a-z0-9])?)*$`,
phrased as: every dot-separated piece is a valid label. -/
def domainRegexB (l : List Char) : Bool :=
  (splitOnDot l).all isDomainLabel

/-- Strip one leading `www.` case-insensitively
(`re.sub(r'^www\.', '', domain, flags=re.IGNORECASE)` — the anchored pattern
substitutes at most once). -/
def wwwStrip (l : List Char) : List Char :=
  if pyLower (l.take 4) = "www.".data then l.drop 4 else l

/-- The steps of `normalize_domain` after the optional URL parse:
`split(":")[0]`, `split("/")[0]`, the `www.` strip, `rstrip('.')`, the
dot check, `lower().strip()`, and the regex validation. -/
def domainFinish (d1 : List Char) : Option (List Char) :=
  let d2 := d1.takeWhile (· ≠ ':')
  let d3 := d2.takeWhile (· ≠ '/')
  let d4 := wwwStrip d3
  let d5 := pyRStrip (· = '.') d4
  if !d5.contains '.' then none
  else
    let d6 := pyStrip (pyLower d5)
    if domainRegexB d6 then some d6 else none

/-- `normalize_domain` from `app/utils/normalization.py`, on the character
list of a Python `str` argument: the empty/whitespace guards, the
`urlparse` branch taken when the input contains `"://"` (keeping
`netloc or path`), then `domainFinish`. -/
def normalizeDomainL (s : List Char) : Option (List Char) :=
  if s.isEmpty then none
  else
    let d0 := pyStrip s
    if d0.isEmpty then none
    else
      let afterUrl : Option (List Char) :=
        if containsSeq "://".data d0 then
          (pyUrlparseNetlocPath d0).map (fun np => if np.1.isEmpty then np.2 else np.1)
        else some d0
      afterUrl.bind domainFinish

/-- `normalize_domain` at the `str` level. -/
def normalize_domain (s : String) : Option String :=
  (normalizeDomainL s.data).map String.mk

/-! ### `normalize_linkedin_url` -/

/-- The steps of `normalize_linkedin_url` after the optional URL parse:
the `www.` strip, the `linkedin.com` prefix requirement on the lowercased
text, `rstrip('/')`, and the final lowercasing. -/
def linkedinFinish (l1 : List Char) : Option (List Char) :=
  let l2 := wwwStrip l1
  if "linkedin.com".data.isPrefixOf (pyLower l2) then
    some (pyLower (pyRStrip (· = '/') l2))
  else none

/-- `normalize_linkedin_url` from `app/utils/normalization.py`: the guards,
the `urlparse` branch taken when the input contains `"://"` (keeping
`netloc + path`), then `linkedinFinish`. -/
def normalizeLinkedinL (s : List Char) : Option (List Char) :=
  if s.isEmpty then none
  else
    let l0 := pyStrip s
    if l0.isEmpty then none
    else
      let afterUrl : Option (List Char) :=
        if containsSeq "://".data l0 then
          (pyUrlparseNetlocPath l0).map (fun np => np.1 ++ np.2)
        else some l0
      afterUrl.bind linkedinFinish

/-- `normalize_linkedin_url` at the `str` level. -/
def normalize_linkedin_url (s : String) : Option String :=
  (normalizeLinkedinL s.data).map String.mk

/-! ### `normalize_email` -/

/-- A character of the local part of the email regex: `[a-z0-9._%+-]`. -/
def emailLocalChar (c : Char) : Bool :=
  isLowerAlnum c || c = '.' || c = '_' || c = '%' || c = '+' || c = '-'

/-- A character of the host part of the email regex: `[a-z0-9.-]`. -/
def emailHostChar (c : Char) : Bool :=
  isLowerAlnum c || c = '.' || c = '-'

/-- The host part `[a-z0-9.-]+\.[a-z]{2,}$` of the email regex.  A match must
place the `\.` at the last dot of the host (an earlier dot would force a dot
into `[a-z]{2,}$`), so: the text after the last dot is the TLD, at least two
lowercase letters, and the text before it is nonempty over `[a-z0-9.-]`. -/
def emailHostB (host : List Char) : Bool :=
  let tld := (host.reverse.takeWhile (· ≠ '.')).reverse
  let pre := (host.reverse.dropWhile (· ≠ '.')).reverse
  host.contains '.' && 2 ≤ tld.length && tld.all isAsciiLowerAlpha &&
    !pre.dropLast.isEmpty && pre.dropLast.all emailHostChar

/-- The whole email validation regex `^[a-z0-9._%+-]+@[a-z0-9.-]+\.[a-z]{2,}$`:
the local part is the text before the first `@` (the class excludes `@`),
nonempty and drawn from the class, and the rest after that `@` is a host. -/
def emailRegexB (l : List Char) : Bool :=
  let localPart := l.takeWhile (· ≠ '@')
  match l.dropWhile (· ≠ '@') with
  | '@' :: host =>
    !localPart.isEmpty && localPart.all emailLocalChar && emailHostB host
  | _ => false

/-- `normalize_email` from `app/utils/normalization.py`. -/
def normalizeEmailL (s : List Char) : Option (List Char) :=
  if s.isEmpty then none
  else
    let e0 := pyStrip s
    if e0.isEmpty then none
    else
      let e1 := pyLower e0
      if emailRegexB e1 then some e1 else none

/-- `normalize_email` at the `str` level. -/
def normalize_email (s : String) : Option String :=
  (normalizeEmailL s.data).map String.mk

/-! ### `normalize_place_id` and `normalize_google_id` -/

/-- `normalize_place_id` from `app/utils/normalization.py`: strip, reject empty. -/
def normalizePlaceIdL (s : List Char) : Option (List Char) :=
  if s.isEmpty then none
  else
    let p := pyStrip s
    if p.isEmpty then none else some p

/-- `normalize_place_id` at the `str` level. -/
def normalize_place_id (s : String) : Option String :=
  (normalizePlaceIdL s.data).map String.mk

/-- `normalize_google_id` from `app/utils/normalization.py`: identical
strip-and-reject-empty rule. -/
def normalize_google_id (s : String) : Option String :=
  (normalizePlaceIdL s.data).map String.mk

/-! ### The `None`-argument guards

Each normalizer begins with `if not x or not isinstance(x, str): return None`;
a Python `None` argument is modelled as `Option.none` at the call boundary. -/

/-- `normalize_domain` including the `None`-argument guard. -/
def normalize_domain_opt : Option String → Option String
  | none => none
  | some s => normalize_domain s

/-- `normalize_linkedin_url` including the `None`-argument guard. -/
def normalize_linkedin_url_opt : Option String → Option String
  | none => none
  | some s => normalize_linkedin_url s

/-- `normalize_email` including the `None`-argument guard. -/
def normalize_email_opt : Option String → Option String
  | none => none
  | some s => normalize_email s

/-- `normalize_place_id` including the `None`-argument guard. -/
def normalize_place_id_opt : Option String → Option String
  | none => none
  | some s => normalize_place_id s

/-- `normalize_google_id` including the `None`-argument guard. -/
def normalize_google_id_opt : Option String → Option String
  | none => none
  | some s => normalize_google_id s

/-! ### The storage model

A `businesses` row, projected to the columns the lookup predicates consult
(of the 111 selected columns, only these appear in any `WHERE` clause; the
rest ride along unexamined in the `SELECT` list).  `id` is the surrogate key;
every other column is nullable, hence `Option`.  The table is modelled as a
`List BusinessRecord` in storage order, which is the order an unordered
query returns rows in. -/

structure BusinessRecord where
  id : Nat
  site : Option String
  linkedin : Option String
  place_id : Option String
  google_id : Option String
  cid : Option String
  kgmid : Option String
  email_1 : Option String
  email_2 : Option String
  email_3 : Option String
  deriving DecidableEq, Repr

/-! ### SQL operator semantics -/

/-- SQL `LIKE` pattern matching over whole strings: `%` matches any sequence,
`_` matches any one character, anything else matches itself. -/
def likeMatch : List Char → List Char → Bool
  | [], s => s.isEmpty
  | '%' :: ps, s => s.tails.any (fun t => likeMatch ps t)
  | '_' :: ps, s =>
    match s with
    | [] => false
    | _ :: s' => likeMatch ps s'
  | p :: ps, s =>
    match s with
    | [] => false
    | c :: s' => p = c && likeMatch ps s'

/-- Postgres `field ILIKE pattern`: case-insensitive `LIKE`; `NULL` never matches. -/
def sqlIlike (field : Option String) (pat : String) : Bool :=
  match field with
  | none => false
  | some s => likeMatch (pyLower pat.data) (pyLower s.data)

/-- SQL `field = value` for a nullable column: `NULL = value` is not true. -/
def sqlEq (field : Option String) (v : String) : Bool :=
  match field with
  | none => false
  | some s => s = v

/-- SQL `field = ANY(keys)` for a nullable column. -/
def sqlEqAny (field : Option String) (keys : List String) : Bool :=
  match field with
  | none => false
  | some s => keys.contains s

/-! ### `QueryBuilder` lookup operations (`app/utils/query_builders.py`)

Every endpoint calls these with `use_prepared=None`, so each operation runs
the ad hoc query shown in its `else` branch; the `WHERE`/`LIMIT` clauses are
interpreted over the list model (`LIMIT n` without `ORDER BY` keeps the first
`n` rows in storage order). -/

/-- `QueryBuilder.by_domain`: reject → `[]`; otherwise
`WHERE site ILIKE '%//<domain>%' OR site ILIKE '%<domain>%' LIMIT 100`. -/
def by_domain (db : List BusinessRecord) (raw : String) : List BusinessRecord :=
  match normalize_domain raw with
  | none => []
  | some d =>
    (db.filter (fun r =>
      sqlIlike r.site ("%//" ++ d ++ "%") || sqlIlike r.site ("%" ++ d ++ "%"))).take 100

/-- `QueryBuilder.by_linkedin`: reject → `[]`; otherwise
`WHERE linkedin ILIKE '%<canonical>%' LIMIT 100`. -/
def by_linkedin (db : List BusinessRecord) (raw : String) : List BusinessRecord :=
  match normalize_linkedin_url raw with
  | none => []
  | some l =>
    (db.filter (fun r => sqlIlike r.linkedin ("%" ++ l ++ "%"))).take 100

/-- `QueryBuilder.by_place_id`: reject → `None`; otherwise
`WHERE place_id = $1 LIMIT 1` via `fetchrow` (first matching row or `None`). -/
def by_place_id (db : List BusinessRecord) (raw : String) : Option BusinessRecord :=
  match normalize_place_id raw with
  | none => none
  | some p => db.find? (fun r => sqlEq r.place_id p)

/-- `QueryBuilder.by_email`: reject → `[]`; otherwise
`WHERE email_1 = $1 OR email_2 = $1 OR email_3 = $1 LIMIT 100`. -/
def by_email (db : List BusinessRecord) (raw : String) : List BusinessRecord :=
  match normalize_email raw with
  | none => []
  | some e =>
    (db.filter (fun r =>
      sqlEq r.email_1 e || sqlEq r.email_2 e || sqlEq r.email_3 e)).take 100

/-- `QueryBuilder.by_google_id`: reject → `[]`; otherwise
`WHERE google_id = $1 OR cid = $1 OR kgmid = $1 LIMIT 100`. -/
def by_google_id (db : List BusinessRecord) (raw : String) : List BusinessRecord :=
  match normalize_google_id raw with
  | none => []
  | some g =>
    (db.filter (fun r =>
      sqlEq r.google_id g || sqlEq r.cid g || sqlEq r.kgmid g)).take 100

/-- `QueryBuilder.batch_by_emails`: normalize each entry, keep the successes
(`[normalize_email(e) for e in emails if normalize_email(e)]`); an empty key
list short-circuits to `[]`; otherwise
`WHERE email_1 = ANY($1) OR email_2 = ANY($1) OR email_3 = ANY($1) LIMIT 1000`. -/
def batch_by_emails (db : List BusinessRecord) (emails : List String) :
    List BusinessRecord :=
  let keys := emails.filterMap normalize_email
  if keys.isEmpty then []
  else
    (db.filter (fun r =>
      sqlEqAny r.email_1 keys || sqlEqAny r.email_2 keys ||
        sqlEqAny r.email_3 keys)).take 1000

/-- Insertion into a list kept ascending by `id` (`ORDER BY id` model). -/
def insertById (r : BusinessRecord) : List BusinessRecord → List BusinessRecord
  | [] => [r]
  | x :: xs => if r.id ≤ x.id then r :: x :: xs else x :: insertById r xs

/-- `ORDER BY id`: a sorted-by-`id` permutation of the rows.  (`id` is the
unique surrogate key, so every sorted permutation is the same; insertion
sort keeps the definition kernel-computable.) -/
def sortById : List BusinessRecord → List BusinessRecord
  | [] => []
  | x :: xs => insertById x (sortById xs)

/-- `QueryBuilder.enriched_contacts`:
`WHERE email_1 IS NOT NULL ORDER BY id LIMIT $1 OFFSET $2`
(offset applied before limit, per SQL). -/
def enriched_contacts (db : List BusinessRecord) (limit offset : Nat) :
    List BusinessRecord :=
  (((sortById (db.filter (fun r => r.email_1.isSome)))).drop offset).take limit

/-- The full enriched set: all rows with a non-null `email_1`, in id order. -/
def enrichedAll (db : List BusinessRecord) : List BusinessRecord :=
  sortById (db.filter (fun r => r.email_1.isSome))

/-! ### The SQL texts issued (`conn.fetch(query, *params)`)

For each operation, the query string handed to the driver together with the
positional parameters bound to it.  `none` means the operation returned
without issuing any query. -/

/-- The shared `SELECT` clause (`QueryBuilder.BASE_SELECT`; the Python
triple-quoted literal's layout whitespace is collapsed to single spaces). -/
def baseSelect : String :=
  "SELECT id, query, name, name_for_emails, site, subtypes, category, type, " ++
  "phone, phone_1, phone_2, phone_3, full_address, borough, street, city, " ++
  "postal_code, state, us_state, country, country_code, latitude, longitude, " ++
  "h3, time_zone, plus_code, area_service, rating, reviews, reviews_link, " ++
  "reviews_tags, reviews_per_score, reviews_per_score_1, reviews_per_score_2, " ++
  "reviews_per_score_3, reviews_per_score_4, reviews_per_score_5, reviews_id, " ++
  "photos_count, photo, street_view, logo, located_in, working_hours, " ++
  "working_hours_csv_compatible, working_hours_old_format, other_hours, " ++
  "popular_times, business_status, about, range, prices, posts, description, " ++
  "typical_time_spent, verified, owner_id, owner_title, owner_link, " ++
  "reservation_links, booking_appointment_link, menu_link, order_links, " ++
  "location_link, location_reviews_link, place_id, google_id, cid, kgmid, " ++
  "located_google_id, email_1, email_1_full_name, email_1_first_name, " ++
  "email_1_last_name, email_1_title, email_1_phone, email_2, email_2_full_name, " ++
  "email_2_first_name, email_2_last_name, email_2_title, email_2_phone, " ++
  "email_3, email_3_full_name, email_3_first_name, email_3_last_name, " ++
  "email_3_title, email_3_phone, facebook, instagram, linkedin, tiktok, medium, " ++
  "reddit, skype, snapchat, telegram, whatsapp, twitter, vimeo, youtube, " ++
  "github, crunchbase, website_title, website_generator, website_description, " ++
  "website_keywords, website_has_fb_pixel, website_has_google_tag, " ++
  "source_file, import_date FROM businesses"

/-- Query text of `by_domain`. -/
def domainSql : String :=
  baseSelect ++ " WHERE site ILIKE $1 OR site ILIKE $2 LIMIT 100"

/-- Query text of `by_linkedin`. -/
def linkedinSql : String :=
  baseSelect ++ " WHERE linkedin ILIKE $1 LIMIT 100"

/-- Query text of `by_place_id`. -/
def placeIdSql : String :=
  baseSelect ++ " WHERE place_id = $1 LIMIT 1"

/-- Query text of `by_email`. -/
def emailSql : String :=
  baseSelect ++ " WHERE email_1 = $1 OR email_2 = $1 OR email_3 = $1 LIMIT 100"

/-- Query text of `by_google_id`. -/
def googleIdSql : String :=
  baseSelect ++ " WHERE google_id = $1 OR cid = $1 OR kgmid = $1 LIMIT 100"

/-- Query text of `batch_by_emails`. -/
def batchEmailsSql : String :=
  baseSelect ++ " WHERE email_1 = ANY($1::text[]) OR email_2 = ANY($1::text[])" ++
    " OR email_3 = ANY($1::text[]) LIMIT 1000"

/-- Query text of `enriched_contacts`. -/
def enrichedSql : String :=
  baseSelect ++ " WHERE email_1 IS NOT NULL ORDER BY id LIMIT $1 OFFSET $2"

/-- The `(query, params)` pair `by_domain` hands to `conn.fetch`. -/
def by_domain_issued (raw : String) : Option (String × List String) :=
  match normalize_domain raw with
  | none => none
  | some d => some (domainSql, ["%//" ++ d ++ "%", "%" ++ d ++ "%"])

/-- The `(query, params)` pair `by_linkedin` hands to `conn.fetch`. -/
def by_linkedin_issued (raw : String) : Option (String × List String) :=
  match normalize_linkedin_url raw with
  | none => none
  | some l => some (linkedinSql, ["%" ++ l ++ "%"])

/-- The `(query, params)` pair `by_place_id` hands to `conn.fetchrow`. -/
def by_place_id_issued (raw : String) : Option (String × List String) :=
  match normalize_place_id raw with
  | none => none
  | some p => some (placeIdSql, [p])

/-- The `(query, params)` pair `by_email` hands to `conn.fetch`. -/
def by_email_issued (raw : String) : Option (String × List String) :=
  match normalize_email raw with
  | none => none
  | some e => some (emailSql, [e])

/-- The `(query, params)` pair `by_google_id` hands to `conn.fetch`. -/
def by_google_id_issued (raw : String) : Option (String × List String) :=
  match normalize_google_id raw with
  | none => none
  | some g => some (googleIdSql, [g])

/-- The `(query, params)` pair `batch_by_emails` hands to `conn.fetch`; the
single parameter is the text-array of surviving keys.  `none`: the filtered
key set was empty and no query was issued. -/
def batch_by_emails_issued (emails : List String) : Option (String × List String) :=
  let keys := emails.filterMap normalize_email
  if keys.isEmpty then none else some (batchEmailsSql, keys)

/-! ## Supporting lemmas -/

/-! ### Characters -/

theorem charEq_iff_toNat {a b : Char} : a = b ↔ a.toNat = b.toNat := by
  constructor
  · intro h
    rw [h]
  · intro h
    apply Char.ext
    exact UInt32.toNat.inj h

theorem isPySpace_iff {c : Char} :
    isPySpace c = true ↔
      c.toNat = 32 ∨ c.toNat = 9 ∨ c.toNat = 10 ∨ c.toNat = 13 ∨
        c.toNat = 11 ∨ c.toNat = 12 := by
  simp only [isPySpace, Bool.or_eq_true, decide_eq_true_eq, charEq_iff_toNat]
  norm_num [show (' ' : Char).toNat = 32 from rfl, show ('\t' : Char).toNat = 9 from rfl,
    show ('\n' : Char).toNat = 10 from rfl, show ('\r' : Char).toNat = 13 from rfl,
    show ('\x0b' : Char).toNat = 11 from rfl, show ('\x0c' : Char).toNat = 12 from rfl]
  tauto

theorem isLabelChar_iff {c : Char} :
    isLabelChar c = true ↔
      (97 ≤ c.toNat ∧ c.toNat ≤ 122) ∨ (48 ≤ c.toNat ∧ c.toNat ≤ 57) ∨
        c.toNat = 45 := by
  simp only [isLabelChar, isLowerAlnum, isAsciiLowerAlpha, isAsciiDigit,
    Bool.or_eq_true, Bool.and_eq_true, decide_eq_true_eq, charEq_iff_toNat]
  norm_num [show ('-' : Char).toNat = 45 from rfl]
  tauto

theorem emailLocalChar_iff {c : Char} :
    emailLocalChar c = true ↔
      (97 ≤ c.toNat ∧ c.toNat ≤ 122) ∨ (48 ≤ c.toNat ∧ c.toNat ≤ 57) ∨
        c.toNat = 46 ∨ c.toNat = 95 ∨ c.toNat = 37 ∨ c.toNat = 43 ∨
        c.toNat = 45 := by
  simp only [emailLocalChar, isLowerAlnum, isAsciiLowerAlpha, isAsciiDigit,
    Bool.or_eq_true, Bool.and_eq_true, decide_eq_true_eq, charEq_iff_toNat]
  norm_num [show ('.' : Char).toNat = 46 from rfl, show ('_' : Char).toNat = 95 from rfl,
    show ('%' : Char).toNat = 37 from rfl, show ('+' : Char).toNat = 43 from rfl,
    show ('-' : Char).toNat = 45 from rfl]
  tauto

theorem emailHostChar_iff {c : Char} :
    emailHostChar c = true ↔
      (97 ≤ c.toNat ∧ c.toNat ≤ 122) ∨ (48 ≤ c.toNat ∧ c.toNat ≤ 57) ∨
        c.toNat = 46 ∨ c.toNat = 45 := by
  simp only [emailHostChar, isLowerAlnum, isAsciiLowerAlpha, isAsciiDigit,
    Bool.or_eq_true, Bool.and_eq_true, decide_eq_true_eq, charEq_iff_toNat]
  norm_num [show ('.' : Char).toNat = 46 from rfl, show ('-' : Char).toNat = 45 from rfl]
  tauto

theorem isAsciiLowerAlpha_iff {c : Char} :
    isAsciiLowerAlpha c = true ↔ 97 ≤ c.toNat ∧ c.toNat ≤ 122 := by
  simp [isAsciiLowerAlpha]

theorem lowerChar_toNat (c : Char) :
    (lowerChar c).toNat =
      if 65 ≤ c.toNat ∧ c.toNat ≤ 90 then c.toNat + 32 else c.toNat := by
  unfold lowerChar
  split
  case isTrue h =>
    have hv : Nat.isValidChar (c.toNat + 32) := Or.inl (by omega)
    simp only [Char.ofNat, hv, dite_true]
    rfl
  case isFalse h => rfl

theorem lowerChar_eq_self {c : Char} (h : ¬(65 ≤ c.toNat ∧ c.toNat ≤ 90)) :
    lowerChar c = c := by
  unfold lowerChar
  rw [if_neg h]

theorem lowerChar_idem (c : Char) : lowerChar (lowerChar c) = lowerChar c := by
  apply lowerChar_eq_self
  rw [lowerChar_toNat]
  split <;> omega

theorem lowerChar_dot : lowerChar '.' = '.' := by decide

theorem isPySpace_lowerChar_false {c : Char}
    (h : ¬(65 ≤ c.toNat ∧ c.toNat ≤ 90)) : isPySpace (lowerChar c) = isPySpace c := by
  rw [lowerChar_eq_self h]

/-! ### Lists of characters -/

theorem dropWhile_dropWhile {α : Type} (p : α → Bool) (l : List α) :
    (l.dropWhile p).dropWhile p = l.dropWhile p := by
  induction l with
  | nil => rfl
  | cons a t ih =>
    by_cases h : p a = true
    · simp [List.dropWhile_cons, h, ih]
    · simp [List.dropWhile_cons, h]

theorem dropWhile_eq_self_of_all {α : Type} {p : α → Bool} {l : List α}
    (h : ∀ c ∈ l, p c = false) : l.dropWhile p = l := by
  cases l with
  | nil => rfl
  | cons a t => simp [List.dropWhile_cons, h a (List.mem_cons_self a t)]

theorem mem_dropWhile_of_not {α : Type} {p : α → Bool} {c : α} {l : List α}
    (hc : c ∈ l) (hp : p c = false) : c ∈ l.dropWhile p := by
  induction l with
  | nil => cases hc
  | cons a t ih =>
    by_cases ha : p a = true
    · rw [List.dropWhile_cons_of_pos ha]
      rcases List.mem_cons.mp hc with h | h
      · subst h
        rw [hp] at ha
        cases ha
      · exact ih h
    · rw [List.dropWhile_cons_of_neg (by simpa using ha)]
      exact hc

theorem pyRStrip_eq_self_of_all {p : Char → Bool} {l : List Char}
    (h : ∀ c ∈ l, p c = false) : pyRStrip p l = l := by
  unfold pyRStrip
  rw [dropWhile_eq_self_of_all (fun c hc => h c (List.mem_reverse.mp hc)),
    List.reverse_reverse]

theorem pyStrip_eq_self_of_all {l : List Char}
    (h : ∀ c ∈ l, isPySpace c = false) : pyStrip l = l := by
  unfold pyStrip
  rw [dropWhile_eq_self_of_all h]
  exact pyRStrip_eq_self_of_all h

theorem mem_pyStrip {c : Char} {l : List Char}
    (hc : c ∈ l) (hp : isPySpace c = false) : c ∈ pyStrip l := by
  unfold pyStrip pyRStrip
  rw [List.mem_reverse]
  apply mem_dropWhile_of_not _ hp
  rw [List.mem_reverse]
  exact mem_dropWhile_of_not hc hp

theorem pyRStrip_append (p : Char → Bool) (a b : List Char) :
    pyRStrip p (a ++ b) =
      if (pyRStrip p b).isEmpty then pyRStrip p a else a ++ pyRStrip p b := by
  unfold pyRStrip
  rw [List.reverse_append, List.dropWhile_append]
  by_cases h : b.reverse.dropWhile p = []
  · rw [if_pos (by simp [h]), if_pos (by simp [h])]
  · have h1 : (b.reverse.dropWhile p).isEmpty = false := by
      cases hx : b.reverse.dropWhile p with
      | nil => exact absurd hx h
      | cons x xs => rfl
    have h2 : ((b.reverse.dropWhile p).reverse).isEmpty = false := by
      cases hx : b.reverse.dropWhile p with
      | nil => exact absurd hx h
      | cons x xs => simp [hx]
    rw [if_neg (by simp [h1]), if_neg (by simp [h2]), List.reverse_append,
      List.reverse_reverse]

theorem head?_dropWhile_not (p : Char → Bool) (l : List Char) :
    ∀ c, (l.dropWhile p).head? = some c → p c = false := by
  induction l with
  | nil => intro c h; cases h
  | cons a t ih =>
    intro c h
    by_cases ha : p a = true
    · rw [List.dropWhile_cons_of_pos ha] at h
      exact ih c h
    · rw [List.dropWhile_cons_of_neg (by simpa using ha)] at h
      simp only [List.head?_cons, Option.some.injEq] at h
      subst h
      simpa using ha

theorem pyRStrip_isPre (p : Char → Bool) (x : List Char) : pyRStrip p x <+: x := by
  have h := List.reverse_prefix.mpr (List.dropWhile_suffix (l := x.reverse) p)
  rwa [List.reverse_reverse] at h

theorem head?_of_isPre {x pre : List Char} (h : pre <+: x) (hne : pre ≠ []) :
    pre.head? = x.head? := by
  obtain ⟨t, ht⟩ := h
  subst ht
  cases pre with
  | nil => exact absurd rfl hne
  | cons a s => rfl

theorem pyRStrip_getLast {p : Char → Bool} {l : List Char}
    (h : pyRStrip p l ≠ []) :
    ∃ c, (pyRStrip p l).getLast? = some c ∧ p c = false := by
  unfold pyRStrip at *
  rcases hne : l.reverse.dropWhile p with _ | ⟨c, t⟩
  · rw [hne] at h
    simp at h
  · refine ⟨c, ?_, ?_⟩
    · rw [List.getLast?_reverse]
      rfl
    · apply head?_dropWhile_not p l.reverse
      rw [hne]
      rfl

theorem pyRStrip_eq_self_of_getLast {p : Char → Bool} {l : List Char}
    (h : ∀ c, l.getLast? = some c → p c = false) : pyRStrip p l = l := by
  unfold pyRStrip
  cases hl : l.reverse with
  | nil =>
    simp at hl
    simp [hl]
  | cons a t =>
    have ha : p a = false := by
      apply h
      rw [← List.head?_reverse, hl]
      rfl
    calc (List.dropWhile p (a :: t)).reverse
        = (a :: t).reverse := by rw [List.dropWhile_cons_of_neg (by simp [ha])]
      _ = (l.reverse).reverse := by rw [hl]
      _ = l := List.reverse_reverse l

theorem pyStrip_idem (l : List Char) : pyStrip (pyStrip l) = pyStrip l := by
  unfold pyStrip
  have h1 : (pyRStrip isPySpace (l.dropWhile isPySpace)).dropWhile isPySpace =
      pyRStrip isPySpace (l.dropWhile isPySpace) := by
    rcases he : pyRStrip isPySpace (l.dropWhile isPySpace) with _ | ⟨a, t⟩
    · rfl
    · have hh : (pyRStrip isPySpace (l.dropWhile isPySpace)).head? =
          (l.dropWhile isPySpace).head? :=
        head?_of_isPre (pyRStrip_isPre _ _) (by rw [he]; simp)
      rw [he] at hh
      have ha : isPySpace a = false := by
        apply head?_dropWhile_not isPySpace l
        rw [← hh]
        rfl
      rw [List.dropWhile_cons_of_neg (by simp [ha])]
  rw [h1]
  unfold pyRStrip
  rw [List.reverse_reverse, dropWhile_dropWhile]

theorem pyLower_idem (l : List Char) : pyLower (pyLower l) = pyLower l := by
  unfold pyLower
  rw [List.map_map]
  exact List.map_congr_left (fun c _ => lowerChar_idem c)

theorem pyLower_eq_self_of_all {l : List Char}
    (h : ∀ c ∈ l, lowerChar c = c) : pyLower l = l := by
  unfold pyLower
  conv_rhs => rw [← List.map_id l]
  exact List.map_congr_left (fun c hc => h c hc)

theorem takeWhile_eq_self_of_all {α : Type} {p : α → Bool} {l : List α}
    (h : ∀ c ∈ l, p c = true) : l.takeWhile p = l := by
  induction l with
  | nil => rfl
  | cons a t ih =>
    rw [List.takeWhile_cons_of_pos (h a (List.mem_cons_self a t))]
    rw [ih (fun c hc => h c (List.mem_cons_of_mem a hc))]

theorem containsSeq_chars {pat l : List Char} (h : containsSeq pat l = true) :
    ∀ c ∈ pat, c ∈ l := by
  intro c hc
  unfold containsSeq at h
  rw [List.any_eq_true] at h
  obtain ⟨t, ht, hp⟩ := h
  have hsuf : t <:+ l := (List.mem_tails _ _).mp ht
  have hpre : pat <+: t := by
    rw [← List.isPrefixOf_iff_prefix]
    exact hp
  exact hsuf.subset (hpre.subset hc)

theorem containsSeq_intro {pat l : List Char} (h : pat <:+: l) :
    containsSeq pat l = true := by
  unfold containsSeq
  rw [List.any_eq_true]
  obtain ⟨t, hpre, hsuf⟩ := List.infix_iff_prefix_suffix.mp h
  exact ⟨t, (List.mem_tails _ _).mpr hsuf, List.isPrefixOf_iff_prefix.mpr hpre⟩

/-! ### The domain validation regex -/

theorem splitOnDot_ne_nil (l : List Char) : splitOnDot l ≠ [] := by
  cases l with
  | nil => simp [splitOnDot]
  | cons c rest =>
    unfold splitOnDot
    split
    · simp
    · split <;> simp

theorem mem_splitOnDot {c : Char} {l : List Char} (h : c ∈ l) :
    c = '.' ∨ ∃ piece ∈ splitOnDot l, c ∈ piece := by
  induction l with
  | nil => cases h
  | cons a rest ih =>
    by_cases ha : a = '.'
    · subst ha
      rcases List.mem_cons.mp h with h | h
      · exact Or.inl h
      · rcases ih h with h | ⟨piece, hp, hc⟩
        · exact Or.inl h
        · refine Or.inr ⟨piece, ?_, hc⟩
          unfold splitOnDot
          rw [if_pos rfl]
          exact List.mem_cons_of_mem _ hp
    · rcases hs : splitOnDot rest with _ | ⟨h0, t0⟩
      · exact absurd hs (splitOnDot_ne_nil rest)
      · have hout : splitOnDot (a :: rest) = (a :: h0) :: t0 := by
          unfold splitOnDot
          rw [if_neg ha, hs]
        rcases List.mem_cons.mp h with h | h
        · subst h
          exact Or.inr ⟨c :: h0, by rw [hout]; exact List.mem_cons_self _ _,
            List.mem_cons_self _ _⟩
        · rcases ih h with h | ⟨piece, hp, hc⟩
          · exact Or.inl h
          · rw [hs] at hp
            rcases List.mem_cons.mp hp with h2 | h2
            · subst h2
              exact Or.inr ⟨a :: piece, by rw [hout]; exact List.mem_cons_self _ _,
                List.mem_cons_of_mem _ hc⟩
            · exact Or.inr ⟨piece, by rw [hout]; exact List.mem_cons_of_mem _ h2, hc⟩

theorem splitOnDot_append_dot (l : List Char) :
    splitOnDot (l ++ ['.']) = splitOnDot l ++ [[]] := by
  induction l with
  | nil => simp [splitOnDot]
  | cons a rest ih =>
    by_cases ha : a = '.'
    · subst ha
      show splitOnDot ('.' :: (rest ++ ['.'])) = _
      unfold splitOnDot
      rw [if_pos rfl, if_pos rfl, ih]
      rfl
    · rcases hs : splitOnDot rest with _ | ⟨h0, t0⟩
      · exact absurd hs (splitOnDot_ne_nil rest)
      · show splitOnDot (a :: (rest ++ ['.'])) = _
        unfold splitOnDot
        rw [if_neg ha, if_neg ha, ih, hs]
        simp

theorem domainRegexB_ne_nil {l : List Char} (h : domainRegexB l = true) : l ≠ [] := by
  intro he
  subst he
  simp [domainRegexB, splitOnDot, isDomainLabel] at h

theorem domainRegexB_chars {l : List Char} (h : domainRegexB l = true) :
    ∀ c ∈ l, isLabelChar c = true ∨ c = '.' := by
  intro c hc
  rcases mem_splitOnDot hc with h2 | ⟨piece, hp, hcp⟩
  · exact Or.inr h2
  · unfold domainRegexB at h
    rw [List.all_eq_true] at h
    have hl := h piece hp
    unfold isDomainLabel at hl
    simp only [Bool.and_eq_true] at hl
    exact Or.inl (List.all_eq_true.mp hl.1.1.2 c hcp)

theorem domainRegexB_last_ne_dot {l : List Char} (h : domainRegexB l = true) :
    l.getLast? ≠ some '.' := by
  intro hlast
  have hne : l ≠ [] := domainRegexB_ne_nil h
  have hdecomp : l = l.dropLast ++ ['.'] := by
    conv_lhs => rw [← List.dropLast_append_getLast hne]
    rw [List.getLast?_eq_getLast l hne] at hlast
    rw [Option.some.injEq] at hlast
    rw [hlast]
  unfold domainRegexB at h
  rw [hdecomp, splitOnDot_append_dot, List.all_append] at h
  simp [isDomainLabel] at h

/-! ### The email validation regex -/

theorem emailHostB_decomp {host : List Char} (h : emailHostB host = true) :
    ∃ pre tld, host = pre ++ '.' :: tld ∧ pre ≠ [] ∧
      (∀ c ∈ pre, emailHostChar c = true) ∧ 2 ≤ tld.length ∧
      (∀ c ∈ tld, isAsciiLowerAlpha c = true) := by
  unfold emailHostB at h
  simp only [Bool.and_eq_true] at h
  obtain ⟨⟨⟨⟨hdot, hlen⟩, htld⟩, hpre_ne⟩, hpre⟩ := h
  set tl := (host.reverse.takeWhile (· ≠ '.')).reverse with htl
  set pr := (host.reverse.dropWhile (· ≠ '.')).reverse with hpr
  have hsplit : host = pr ++ tl := by
    rw [htl, hpr, ← List.reverse_append, List.takeWhile_append_dropWhile,
      List.reverse_reverse]
  have hprne : pr ≠ [] := by
    intro hx
    rw [hx] at hpre_ne
    simp at hpre_ne
  have hlastpr : pr.getLast? = some '.' := by
    rw [hpr, List.getLast?_reverse]
    rcases hd : host.reverse.dropWhile (· ≠ '.') with _ | ⟨a, t⟩
    · rw [hpr, hd] at hprne
      simp at hprne
    · have := head?_dropWhile_not (fun c => c ≠ '.') host.reverse a (by rw [hd]; rfl)
      simp only [decide_eq_false_iff_not, Decidable.not_not] at this
      rw [this]
      rfl
  have hprdecomp : pr = pr.dropLast ++ ['.'] := by
    conv_lhs => rw [← List.dropLast_append_getLast hprne]
    rw [List.getLast?_eq_getLast pr hprne, Option.some.injEq] at hlastpr
    rw [hlastpr]
  refine ⟨pr.dropLast, tl, ?_, by simpa using hpre_ne, ?_, ?_, ?_⟩
  · rw [hsplit]
    conv_lhs => rw [hprdecomp]
    simp
  · exact fun c hc => List.all_eq_true.mp hpre c hc
  · exact of_decide_eq_true hlen
  · exact fun c hc => List.all_eq_true.mp htld c hc

theorem emailRegexB_decomp {l : List Char} (h : emailRegexB l = true) :
    ∃ localPart host, l = localPart ++ '@' :: host ∧ localPart ≠ [] ∧
      (∀ c ∈ localPart, emailLocalChar c = true) ∧ emailHostB host = true := by
  unfold emailRegexB at h
  rcases hd : l.dropWhile (· ≠ '@') with _ | ⟨a, host⟩
  · rw [hd] at h
    simp at h
  · rw [hd] at h
    have ha : a = '@' := by
      have := head?_dropWhile_not (fun c => c ≠ '@') l a (by rw [hd]; rfl)
      simpa using this
    subst ha
    simp only [Bool.and_eq_true] at h
    refine ⟨l.takeWhile (· ≠ '@'), host, ?_, by simpa using h.1.1, ?_, h.2⟩
    · conv_lhs => rw [← List.takeWhile_append_dropWhile (p := fun c => decide (c ≠ '@')) (l := l)]
      rw [hd]
    · exact fun c hc => List.all_eq_true.mp h.1.2 c hc

theorem emailRegexB_chars {l : List Char} (h : emailRegexB l = true) :
    ∀ c ∈ l, emailLocalChar c = true ∨ c = '@' ∨ emailHostChar c = true := by
  intro c hc
  obtain ⟨localPart, host, hsplit, _, hlocal, hhost⟩ := emailRegexB_decomp h
  obtain ⟨pre, tld, hhsplit, _, hpre, _, htld⟩ := emailHostB_decomp hhost
  subst hsplit
  rcases List.mem_append.mp hc with h1 | h1
  · exact Or.inl (hlocal c h1)
  · rcases List.mem_cons.mp h1 with h2 | h2
    · exact Or.inr (Or.inl h2)
    · rw [hhsplit] at h2
      rcases List.mem_append.mp h2 with h3 | h3
      · exact Or.inr (Or.inr (hpre c h3))
      · rcases List.mem_cons.mp h3 with h4 | h4
        · subst h4
          exact Or.inr (Or.inr (by decide))
        · refine Or.inr (Or.inr ?_)
          rw [emailHostChar_iff]
          have := isAsciiLowerAlpha_iff.mp (htld c h4)
          omega

theorem emailRegexB_ne_nil {l : List Char} (h : emailRegexB l = true) : l ≠ [] := by
  obtain ⟨localPart, host, hsplit, hne, _, _⟩ := emailRegexB_decomp h
  subst hsplit
  simp

/-! ### Inversion and re-application of `normalize_domain` -/

theorem charContains_iff {l : List Char} {a : Char} : l.contains a = true ↔ a ∈ l := by
  unfold List.contains
  exact List.elem_iff

/-- The character ranges a validated domain draws on: lowercase letters,
digits, hyphen (45), dot (46). -/
theorem domainRegexB_ranges {d : List Char} (hreg : domainRegexB d = true) :
    ∀ c ∈ d, (97 ≤ c.toNat ∧ c.toNat ≤ 122) ∨ (48 ≤ c.toNat ∧ c.toNat ≤ 57) ∨
      c.toNat = 45 ∨ c.toNat = 46 := by
  intro c hc
  rcases domainRegexB_chars hreg c hc with h | h
  · rcases isLabelChar_iff.mp h with h | h | h
    · exact Or.inl h
    · exact Or.inr (Or.inl h)
    · exact Or.inr (Or.inr (Or.inl h))
  · subst h
    exact Or.inr (Or.inr (Or.inr rfl))

theorem domainFinish_some {d1 d : List Char} (h : domainFinish d1 = some d) :
    domainRegexB d = true ∧ '.' ∈ d := by
  simp only [domainFinish] at h
  split at h
  · cases h
  rename_i hdot5
  split at h
  case isFalse => cases h
  case isTrue hreg =>
    rw [Option.some.injEq] at h
    subst h
    refine ⟨hreg, ?_⟩
    simp only [Bool.not_eq_true, Bool.not_eq_false'] at hdot5
    have hd5 := charContains_iff.mp hdot5
    have hd5l : '.' ∈ pyLower (pyRStrip (fun c => c = '.')
        (wwwStrip ((d1.takeWhile (· ≠ ':')).takeWhile (· ≠ '/')))) := by
      apply List.mem_map.mpr
      exact ⟨'.', hd5, by decide⟩
    exact mem_pyStrip hd5l (by decide)

theorem domainFinish_reapply {d : List Char} (hreg : domainRegexB d = true)
    (hdot : '.' ∈ d) (hwww : d.take 4 ≠ "www.".data) : domainFinish d = some d := by
  have hrange := domainRegexB_ranges hreg
  have htw1 : d.takeWhile (· ≠ ':') = d := by
    apply takeWhile_eq_self_of_all
    intro c hc
    have hr := hrange c hc
    simp only [decide_eq_true_eq]
    intro he
    subst he
    have h58 : (':' : Char).toNat = 58 := rfl
    omega
  have htw2 : d.takeWhile (· ≠ '/') = d := by
    apply takeWhile_eq_self_of_all
    intro c hc
    have hr := hrange c hc
    simp only [decide_eq_true_eq]
    intro he
    subst he
    have h47 : ('/' : Char).toNat = 47 := rfl
    omega
  have hlowstable : ∀ c ∈ d, lowerChar c = c := by
    intro c hc
    have hr := hrange c hc
    apply lowerChar_eq_self
    omega
  have hww : wwwStrip d = d := by
    unfold wwwStrip
    rw [if_neg]
    intro he
    apply hwww
    rw [← he]
    symm
    apply pyLower_eq_self_of_all
    intro c hc
    exact hlowstable c (List.take_subset 4 d hc)
  have hrs : pyRStrip (fun c => c = '.') d = d := by
    apply pyRStrip_eq_self_of_getLast
    intro c hc
    have hlast := domainRegexB_last_ne_dot hreg
    rw [hc] at hlast
    simp only [ne_eq, Option.some.injEq] at hlast
    simpa using fun he => hlast (by rw [he])
  have hdc : d.contains '.' = true := charContains_iff.mpr hdot
  have hlow : pyLower d = d := pyLower_eq_self_of_all hlowstable
  have hstr : pyStrip d = d := by
    apply pyStrip_eq_self_of_all
    intro c hc
    have hr := hrange c hc
    by_contra hx
    rw [Bool.not_eq_false] at hx
    have h2 := isPySpace_iff.mp hx
    omega
  simp only [domainFinish, htw1, htw2, hww, hrs, hdc, Bool.not_true,
    Bool.false_eq_true, if_false, hlow, hstr, hreg, if_true]

theorem normalizeDomainL_some {s d : List Char} (h : normalizeDomainL s = some d) :
    domainRegexB d = true ∧ '.' ∈ d := by
  simp only [normalizeDomainL] at h
  split at h
  · cases h
  split at h
  · cases h
  rcases hb : (if containsSeq "://".data (pyStrip s) = true then
      (pyUrlparseNetlocPath (pyStrip s)).map (fun np => if np.1.isEmpty = true then np.2 else np.1)
    else some (pyStrip s)) with _ | d1
  · rw [hb] at h
    cases h
  · rw [hb] at h
    rw [Option.some_bind] at h
    exact domainFinish_some h

theorem normalizeDomainL_reapply {d : List Char} (hreg : domainRegexB d = true)
    (hdot : '.' ∈ d) (hwww : d.take 4 ≠ "www.".data) :
    normalizeDomainL d = some d := by
  have hrange := domainRegexB_ranges hreg
  have hne : d.isEmpty = false := by
    rcases d with _ | ⟨a, t⟩
    · cases hdot
    · rfl
  have hstr : pyStrip d = d := by
    apply pyStrip_eq_self_of_all
    intro c hc
    have hr := hrange c hc
    by_contra hx
    rw [Bool.not_eq_false] at hx
    have h2 := isPySpace_iff.mp hx
    omega
  have hcs : containsSeq "://".data d = false := by
    by_contra hx
    rw [Bool.not_eq_false] at hx
    have hcolon : ':' ∈ d := containsSeq_chars hx ':' (by decide)
    have hr := hrange ':' hcolon
    have h58 : (':' : Char).toNat = 58 := rfl
    omega
  simp only [normalizeDomainL, hne, Bool.false_eq_true, if_false, hstr, hcs,
    Option.some_bind]
  exact domainFinish_reapply hreg hdot hwww

/-! ### Inversion and re-application of `normalize_linkedin_url` -/

theorem lowerChar_eq_slash {c : Char} (h : lowerChar c = '/') : c = '/' := by
  rw [charEq_iff_toNat] at h ⊢
  rw [lowerChar_toNat] at h
  have h47 : ('/' : Char).toNat = 47 := rfl
  split at h <;> omega

theorem mem_linkedin_ne_slash {c : Char} (h : c ∈ "linkedin.com".data) : c ≠ '/' := by
  intro he
  subst he
  revert h
  decide

theorem linkedinFinish_some {l1 d : List Char} (h : linkedinFinish l1 = some d) :
    "linkedin.com".data.isPrefixOf d = true ∧ pyLower d = d ∧
      d.getLast? ≠ some '/' := by
  simp only [linkedinFinish] at h
  split at h
  case isFalse => cases h
  case isTrue hpre =>
    rw [Option.some.injEq] at h
    subst h
    refine ⟨?_, pyLower_idem _, ?_⟩
    · -- the prefix survives `rstrip('/')`
      have hp : "linkedin.com".data <+: pyLower (wwwStrip l1) :=
        List.isPrefixOf_iff_prefix.mp hpre
      obtain ⟨t, ht⟩ := hp
      obtain ⟨a, b, hab, hmapa, hmapb⟩ := List.map_eq_append_iff.mp ht.symm
      rw [ List.isPrefixOf_iff_prefix]
      rw [hab, pyRStrip_append]
      by_cases hbe : (pyRStrip (fun c => c = '/') b).isEmpty = true
      · rw [if_pos hbe]
        have hano : ∀ c ∈ a, (fun c => decide (c = '/')) c = false := by
          intro c hc
          simp only [decide_eq_false_iff_not]
          intro he
          subst he
          have hmem : lowerChar '/' ∈ List.map lowerChar a :=
            List.mem_map_of_mem lowerChar hc
          rw [hmapa] at hmem
          exact mem_linkedin_ne_slash hmem (by decide)
        rw [pyRStrip_eq_self_of_all hano]
        refine ⟨[], ?_⟩
        rw [List.append_nil]
        exact hmapa.symm
      · rw [if_neg (by simpa using hbe)]
        unfold pyLower
        rw [List.map_append, hmapa]
        exact ⟨_, rfl⟩
    · -- `rstrip('/')` leaves no trailing slash, and lowercasing keeps it so
      rcases hre : pyRStrip (fun c => c = '/') (wwwStrip l1) with _ | ⟨x, xs⟩
      · simp [pyLower, hre]
      · have hgl := pyRStrip_getLast (p := fun c => c = '/') (l := wwwStrip l1)
          (by rw [hre]; simp)
        obtain ⟨c, hc1, hc2⟩ := hgl
        rw [hre] at hc1
        unfold pyLower
        rw [List.getLast?_map, hc1]
        simp only [Option.map_some', ne_eq, Option.some.injEq]
        intro he
        have hcs : c = '/' := lowerChar_eq_slash he
        subst hcs
        simp at hc2

theorem linkedinFinish_reapply {d : List Char}
    (hpre : "linkedin.com".data.isPrefixOf d = true) (hlow : pyLower d = d)
    (hlast : d.getLast? ≠ some '/') : linkedinFinish d = some d := by
  obtain ⟨t, ht⟩ := List.isPrefixOf_iff_prefix.mp hpre
  have htake : d.take 4 = "link".data := by
    rw [← ht]
    rfl
  have hww : wwwStrip d = d := by
    unfold wwwStrip
    rw [htake, if_neg]
    decide
  have hrs : pyRStrip (fun c => c = '/') d = d := by
    apply pyRStrip_eq_self_of_getLast
    intro c hc
    simp only [decide_eq_false_iff_not]
    intro he
    subst he
    exact hlast hc
  simp only [linkedinFinish, hww, hlow, hpre, if_true, hrs]

theorem normalizeLinkedinL_some {s d : List Char} (h : normalizeLinkedinL s = some d) :
    "linkedin.com".data.isPrefixOf d = true ∧ pyLower d = d ∧
      d.getLast? ≠ some '/' := by
  simp only [normalizeLinkedinL] at h
  split at h
  · cases h
  split at h
  · cases h
  rcases hb : (if containsSeq "://".data (pyStrip s) = true then
      (pyUrlparseNetlocPath (pyStrip s)).map (fun np => np.1 ++ np.2)
    else some (pyStrip s)) with _ | l1
  · rw [hb] at h
    cases h
  · rw [hb] at h
    rw [Option.some_bind] at h
    exact linkedinFinish_some h

theorem normalizeLinkedinL_reapply {d : List Char}
    (hpre : "linkedin.com".data.isPrefixOf d = true) (hlow : pyLower d = d)
    (hlast : d.getLast? ≠ some '/') (hstrip : pyStrip d = d)
    (hcs : containsSeq "://".data d = false) : normalizeLinkedinL d = some d := by
  have hne : d.isEmpty = false := by
    obtain ⟨t, ht⟩ := List.isPrefixOf_iff_prefix.mp hpre
    rw [← ht]
    rfl
  simp only [normalizeLinkedinL, hne, Bool.false_eq_true, if_false, hstrip, hcs,
    Option.some_bind]
  exact linkedinFinish_reapply hpre hlow hlast


/-! ### Inversion and re-application of `normalize_email` and the ID normalizers -/

theorem emailRegexB_ranges {l : List Char} (h : emailRegexB l = true) :
    ∀ c ∈ l, (97 ≤ c.toNat ∧ c.toNat ≤ 122) ∨ (48 ≤ c.toNat ∧ c.toNat ≤ 57) ∨
      c.toNat = 46 ∨ c.toNat = 95 ∨ c.toNat = 37 ∨ c.toNat = 43 ∨
      c.toNat = 45 ∨ c.toNat = 64 := by
  intro c hc
  rcases emailRegexB_chars h c hc with h1 | h1 | h1
  · rcases emailLocalChar_iff.mp h1 with h2 | h2 | h2 | h2 | h2 | h2 | h2 <;> omega
  · subst h1
    have h64 : ('@' : Char).toNat = 64 := rfl
    omega
  · rcases emailHostChar_iff.mp h1 with h2 | h2 | h2 | h2 <;> omega

theorem normalizeEmailL_some {s e : List Char} (h : normalizeEmailL s = some e) :
    emailRegexB e = true ∧ pyLower e = e := by
  simp only [normalizeEmailL] at h
  split at h
  · cases h
  split at h
  · cases h
  split at h
  case isFalse => cases h
  case isTrue hreg =>
    rw [Option.some.injEq] at h
    subst h
    exact ⟨hreg, pyLower_idem _⟩

theorem normalizeEmailL_reapply {e : List Char} (hreg : emailRegexB e = true)
    (hlow : pyLower e = e) : normalizeEmailL e = some e := by
  have hrange := emailRegexB_ranges hreg
  have hne : e.isEmpty = false := by
    rcases he : e with _ | ⟨a, t⟩
    · exact absurd he (emailRegexB_ne_nil hreg)
    · rfl
  have hstr : pyStrip e = e := by
    apply pyStrip_eq_self_of_all
    intro c hc
    have hr := hrange c hc
    by_contra hx
    rw [Bool.not_eq_false] at hx
    have h2 := isPySpace_iff.mp hx
    omega
  simp only [normalizeEmailL, hne, Bool.false_eq_true, if_false, hstr, hlow, hreg,
    if_true]

theorem normalizePlaceIdL_idem {s p : List Char} (h : normalizePlaceIdL s = some p) :
    normalizePlaceIdL p = some p := by
  simp only [normalizePlaceIdL] at h
  split at h
  · cases h
  split at h
  · cases h
  rename_i h2
  rw [Option.some.injEq] at h
  subst h
  have hid : pyStrip (pyStrip s) = pyStrip s := pyStrip_idem s
  simp only [normalizePlaceIdL, hid]
  rw [if_neg (by simpa using h2), if_neg (by simpa using h2)]

/-! ## The claims -/

/-- C1.  The claim asserts idempotence of every normalizer:
`normalize(normalize(x)) == normalize(x)` whenever the first application
succeeds.  This fails for `normalize_domain` (the anchored `www.`
substitution strips another `www.` from a canonical value that begins with
one) and for `normalize_linkedin_url` (a canonical value containing `://`
re-enters `urlparse` on the second application, and one ending in stripped
whitespace is re-stripped).  Amended claim: email, place-ID and Google-ID
normalization are idempotent; domain normalization is idempotent whenever
its canonical result does not begin with `www.`; LinkedIn normalization is
idempotent whenever its canonical result contains no `"://"` and carries no
surrounding whitespace. -/
theorem C1_normalization_idempotence_amended :
    (∀ x e, normalize_email x = some e → normalize_email e = some e) ∧
    (∀ x p, normalize_place_id x = some p → normalize_place_id p = some p) ∧
    (∀ x g, normalize_google_id x = some g → normalize_google_id g = some g) ∧
    (∀ x d, normalize_domain x = some d →
      "www.".data.isPrefixOf d.data = false → normalize_domain d = some d) ∧
    (∀ x u, normalize_linkedin_url x = some u →
      containsSeq "://".data u.data = false → pyStrip u.data = u.data →
      normalize_linkedin_url u = some u) := by
  refine ⟨?_, ?_, ?_, ?_, ?_⟩
  · intro x e h
    obtain ⟨l, hl, he⟩ := Option.map_eq_some'.mp h
    subst he
    obtain ⟨hreg, hlow⟩ := normalizeEmailL_some hl
    show (normalizeEmailL l).map String.mk = some (String.mk l)
    rw [normalizeEmailL_reapply hreg hlow]
    rfl
  · intro x p h
    obtain ⟨l, hl, he⟩ := Option.map_eq_some'.mp h
    subst he
    show (normalizePlaceIdL l).map String.mk = some (String.mk l)
    rw [normalizePlaceIdL_idem hl]
    rfl
  · intro x g h
    obtain ⟨l, hl, he⟩ := Option.map_eq_some'.mp h
    subst he
    show (normalizePlaceIdL l).map String.mk = some (String.mk l)
    rw [normalizePlaceIdL_idem hl]
    rfl
  · intro x d h hwww
    obtain ⟨l, hl, he⟩ := Option.map_eq_some'.mp h
    subst he
    obtain ⟨hreg, hdot⟩ := normalizeDomainL_some hl
    show (normalizeDomainL l).map String.mk = some (String.mk l)
    rw [normalizeDomainL_reapply hreg hdot]
    · rfl
    · intro htake
      have hp : "www.".data <+: l := by
        rw [ List.prefix_iff_eq_take]
        show "www.".data = List.take 4 l
        exact htake.symm
      rw [show (String.mk l).data = l from rfl] at hwww
      rw [List.isPrefixOf_iff_prefix.mpr hp] at hwww
      cases hwww
  · intro x u h hcs hstrip
    obtain ⟨l, hl, he⟩ := Option.map_eq_some'.mp h
    subst he
    obtain ⟨hpre, hlow, hlast⟩ := normalizeLinkedinL_some hl
    show (normalizeLinkedinL l).map String.mk = some (String.mk l)
    rw [normalizeLinkedinL_reapply hpre hlow hlast hstrip hcs]
    rfl

/-- C1, counterexample to the claim as stated: domain normalization maps
`"www.www.example.com"` to `"www.example.com"` but maps that canonical value
to `"example.com"`; LinkedIn normalization maps
`"http://linkedin.com://y"` to `"linkedin.com://y"` but rejects that
canonical value outright. -/
theorem C1_counterexample :
    normalize_domain "www.www.example.com" = some "www.example.com" ∧
    normalize_domain "www.example.com" = some "example.com" ∧
    (some ("example.com" : String) ≠ some ("www.example.com" : String)) ∧
    normalize_linkedin_url "http://linkedin.com://y" = some "linkedin.com://y" ∧
    normalize_linkedin_url "linkedin.com://y" = none := by
  refine ⟨by decide, by decide, by decide, by decide, by decide⟩

/-- C1, witness: each conjunct of the amended theorem applied at a concrete
input with its hypotheses discharged by computation. -/
theorem C1_witness :
    normalize_email "john.doe@example.com" = some "john.doe@example.com" ∧
    normalize_place_id "ChIJtest" = some "ChIJtest" ∧
    normalize_google_id "0x89c25:0x3b2" = some "0x89c25:0x3b2" ∧
    normalize_domain "example.com" = some "example.com" ∧
    normalize_linkedin_url "linkedin.com/company/acme" =
      some "linkedin.com/company/acme" :=
  ⟨C1_normalization_idempotence_amended.1 "John.Doe@Example.COM" _ (by decide),
   C1_normalization_idempotence_amended.2.1 " ChIJtest " _ (by decide),
   C1_normalization_idempotence_amended.2.2.1 " 0x89c25:0x3b2 " _ (by decide),
   C1_normalization_idempotence_amended.2.2.2.1 "https://www.example.com/path" _
     (by decide) (by decide),
   C1_normalization_idempotence_amended.2.2.2.2
     "https://www.linkedin.com/company/acme/" _ (by decide) (by decide) (by decide)⟩


/-! ### Sorting, SQL-operator and lookup lemmas -/

theorem insertById_perm (r : BusinessRecord) (l : List BusinessRecord) :
    List.Perm (insertById r l) (r :: l) := by
  induction l with
  | nil => exact List.Perm.refl _
  | cons x xs ih =>
    unfold insertById
    split
    · exact List.Perm.refl _
    · exact (List.Perm.cons x ih).trans (List.Perm.swap r x xs)

theorem sortById_perm (l : List BusinessRecord) : List.Perm (sortById l) l := by
  induction l with
  | nil => exact List.Perm.refl _
  | cons x xs ih =>
    exact (insertById_perm x (sortById xs)).trans (List.Perm.cons x ih)

theorem mem_insertById {b r : BusinessRecord} {l : List BusinessRecord} :
    b ∈ insertById r l ↔ b = r ∨ b ∈ l := by
  rw [(insertById_perm r l).mem_iff]
  simp

theorem insertById_pairwise {r : BusinessRecord} {l : List BusinessRecord}
    (h : List.Pairwise (fun a b => a.id ≤ b.id) l) :
    List.Pairwise (fun a b => a.id ≤ b.id) (insertById r l) := by
  induction l with
  | nil => simp [insertById]
  | cons x xs ih =>
    rw [List.pairwise_cons] at h
    unfold insertById
    split
    case isTrue hle =>
      rw [List.pairwise_cons]
      refine ⟨?_, List.pairwise_cons.mpr h⟩
      intro b hb
      rcases List.mem_cons.mp hb with hb | hb
      · subst hb
        exact hle
      · exact Nat.le_trans hle (h.1 b hb)
    case isFalse hgt =>
      rw [List.pairwise_cons]
      refine ⟨?_, ih h.2⟩
      intro b hb
      rcases mem_insertById.mp hb with hb | hb
      · subst hb
        omega
      · exact h.1 b hb

theorem sortById_pairwise (l : List BusinessRecord) :
    List.Pairwise (fun a b => a.id ≤ b.id) (sortById l) := by
  induction l with
  | nil => simp [sortById]
  | cons x xs ih => exact insertById_pairwise ih

theorem sqlEq_true_iff {f : Option String} {v : String} :
    sqlEq f v = true ↔ f = some v := by
  cases f <;> simp [sqlEq]

theorem sqlEqAny_true_iff {f : Option String} {keys : List String} :
    sqlEqAny f keys = true ↔ ∃ v, f = some v ∧ v ∈ keys := by
  cases f with
  | none => simp [sqlEqAny]
  | some s =>
    simp only [sqlEqAny, Option.some.injEq]
    constructor
    · intro h
      exact ⟨s, rfl, List.elem_iff.mp h⟩
    · rintro ⟨v, hv, hmem⟩
      subst hv
      exact List.elem_iff.mpr hmem

/-! ## C2: rejection short-circuits and place-ID NotFound semantics -/

/-- C2.  A raw key rejected by normalization short-circuits each list lookup
to `[]` and never errors; the place-ID lookup alone returns the distinct
`none` (the HTTP layer's 404/NotFound) — both on a rejected key and on a
well-formed key matching no stored row — while a key matching a stored row
yields exactly one record (the first match of `LIMIT 1`). -/
theorem C2_rejection_and_place_id_semantics :
    (∀ db raw, normalize_domain raw = none → by_domain db raw = []) ∧
    (∀ db raw, normalize_linkedin_url raw = none → by_linkedin db raw = []) ∧
    (∀ db raw, normalize_email raw = none → by_email db raw = []) ∧
    (∀ db raw, normalize_google_id raw = none → by_google_id db raw = []) ∧
    (∀ db raw, normalize_place_id raw = none → by_place_id db raw = none) ∧
    (∀ db raw p, normalize_place_id raw = some p →
      (∀ r ∈ db, sqlEq r.place_id p = false) → by_place_id db raw = none) ∧
    (∀ db raw p, normalize_place_id raw = some p →
      (∃ r ∈ db, sqlEq r.place_id p = true) →
      ∃ r, by_place_id db raw = some r ∧ r ∈ db ∧ r.place_id = some p) := by
  refine ⟨?_, ?_, ?_, ?_, ?_, ?_, ?_⟩
  · intro db raw h
    simp [by_domain, h]
  · intro db raw h
    simp [by_linkedin, h]
  · intro db raw h
    simp [by_email, h]
  · intro db raw h
    simp [by_google_id, h]
  · intro db raw h
    simp [by_place_id, h]
  · intro db raw p h hnone
    simp only [by_place_id, h]
    exact List.find?_eq_none.mpr (fun r hr => by simp [hnone r hr])
  · intro db raw p h hex
    simp only [by_place_id, h]
    have hsome : (db.find? (fun r => sqlEq r.place_id p)).isSome = true := by
      rw [List.find?_isSome]
      obtain ⟨r, hr, hp⟩ := hex
      exact ⟨r, hr, hp⟩
    obtain ⟨r, hr⟩ := Option.isSome_iff_exists.mp hsome
    refine ⟨r, hr, List.mem_of_find?_eq_some hr, ?_⟩
    exact sqlEq_true_iff.mp (by simpa using List.find?_some hr)

/-- A row whose `place_id` column holds `"PID-1"`, used to instantiate C2. -/
def pidRec : BusinessRecord :=
  ⟨1, none, none, some "PID-1", none, none, none, none, none, none⟩

/-- C2, witness: every conjunct applied at concrete inputs — an invalid
(whitespace) key for each lookup, then a one-row store probed with a
missing and with a present place ID. -/
theorem C2_witness :
    by_domain [pidRec] "   " = [] ∧
    by_linkedin [pidRec] "   " = [] ∧
    by_email [pidRec] "   " = [] ∧
    by_google_id [pidRec] "   " = [] ∧
    by_place_id [pidRec] "   " = none ∧
    by_place_id [pidRec] "PID-2" = none ∧
    (∃ r, by_place_id [pidRec] "PID-1" = some r ∧ r ∈ [pidRec] ∧
      r.place_id = some "PID-1") :=
  ⟨C2_rejection_and_place_id_semantics.1 [pidRec] "   " (by decide),
   C2_rejection_and_place_id_semantics.2.1 [pidRec] "   " (by decide),
   C2_rejection_and_place_id_semantics.2.2.1 [pidRec] "   " (by decide),
   C2_rejection_and_place_id_semantics.2.2.2.1 [pidRec] "   " (by decide),
   C2_rejection_and_place_id_semantics.2.2.2.2.1 [pidRec] "   " (by decide),
   C2_rejection_and_place_id_semantics.2.2.2.2.2.1 [pidRec] "PID-2" "PID-2"
     (by decide) (by decide),
   C2_rejection_and_place_id_semantics.2.2.2.2.2.2 [pidRec] "PID-1" "PID-1"
     (by decide) ⟨pidRec, by decide, by decide⟩⟩


/-! ## C5: batch email leniency -/

/-- C5.  The batch lookup normalizes each raw key independently and silently
drops failures — removing an invalid entry from a batch never changes the
result; an all-invalid (or empty) batch yields `[]` and issues no query; a
surviving key set selects exactly the rows with any of the three email slots
equal to a surviving key, capped at 1000. -/
theorem C5_batch_email_leniency :
    (["test@example.com", "not-an-email"].filterMap normalize_email =
      ["test@example.com"]) ∧
    (∀ db e1 e2 bad, normalize_email bad = none →
      batch_by_emails db (e1 ++ bad :: e2) = batch_by_emails db (e1 ++ e2)) ∧
    (∀ db emails, emails.filterMap normalize_email = [] →
      batch_by_emails db emails = [] ∧ batch_by_emails_issued emails = none) ∧
    (∀ db emails, emails.filterMap normalize_email ≠ [] →
      batch_by_emails db emails =
        (db.filter (fun r =>
          sqlEqAny r.email_1 (emails.filterMap normalize_email) ||
            sqlEqAny r.email_2 (emails.filterMap normalize_email) ||
            sqlEqAny r.email_3 (emails.filterMap normalize_email))).take 1000) ∧
    (∀ db emails r, r ∈ batch_by_emails db emails → r ∈ db ∧
      ∃ k, k ∈ emails.filterMap normalize_email ∧
        (r.email_1 = some k ∨ r.email_2 = some k ∨ r.email_3 = some k)) := by
  refine ⟨by decide, ?_, ?_, ?_, ?_⟩
  · intro db e1 e2 bad hbad
    unfold batch_by_emails
    rw [List.filterMap_append, List.filterMap_cons, hbad, ← List.filterMap_append]
  · intro db emails hkeys
    unfold batch_by_emails batch_by_emails_issued
    rw [hkeys]
    exact ⟨rfl, rfl⟩
  · intro db emails hkeys
    unfold batch_by_emails
    rw [if_neg (by simpa [List.isEmpty_iff] using hkeys)]
  · intro db emails r hr
    unfold batch_by_emails at hr
    by_cases hkeys : (emails.filterMap normalize_email).isEmpty = true
    · rw [if_pos hkeys] at hr
      cases hr
    · rw [if_neg (by simpa using hkeys)] at hr
      have hrf := List.take_subset _ _ hr
      rw [List.mem_filter] at hrf
      obtain ⟨hrdb, hpred⟩ := hrf
      refine ⟨hrdb, ?_⟩
      simp only [Bool.or_eq_true] at hpred
      rcases hpred with (h1 | h1) | h1
      · obtain ⟨v, hv, hvk⟩ := sqlEqAny_true_iff.mp h1
        exact ⟨v, hvk, Or.inl hv⟩
      · obtain ⟨v, hv, hvk⟩ := sqlEqAny_true_iff.mp h1
        exact ⟨v, hvk, Or.inr (Or.inl hv)⟩
      · obtain ⟨v, hv, hvk⟩ := sqlEqAny_true_iff.mp h1
        exact ⟨v, hvk, Or.inr (Or.inr hv)⟩

/-- A row reachable by the email `"test@example.com"` in its second slot. -/
def mailRec : BusinessRecord :=
  ⟨2, none, none, none, none, none, none, none, some "test@example.com", none⟩

/-- C5, witness: the spec's own example batch — one valid and one invalid
key — applied to a one-row store through each conjunct of the theorem. -/
theorem C5_witness :
    batch_by_emails [mailRec] (["x"] ++ "not-an-email" :: ["test@example.com"]) =
      batch_by_emails [mailRec] (["x"] ++ ["test@example.com"]) ∧
    (batch_by_emails [mailRec] ["nope"] = [] ∧
      batch_by_emails_issued ["nope"] = none) ∧
    (mailRec ∈ [mailRec] ∧ ∃ k,
      k ∈ (["test@example.com", "not-an-email"].filterMap normalize_email) ∧
      (mailRec.email_1 = some k ∨ mailRec.email_2 = some k ∨
        mailRec.email_3 = some k)) :=
  ⟨C5_batch_email_leniency.2.1 [mailRec] ["x"] ["test@example.com"]
     "not-an-email" (by decide),
   C5_batch_email_leniency.2.2.1 [mailRec] ["nope"] (by decide),
   C5_batch_email_leniency.2.2.2.2 [mailRec] ["test@example.com", "not-an-email"]
     mailRec (by decide)⟩

/-! ## C6: server-side result caps -/

/-- C6.  No lookup ever returns more rows than its fixed cap — 100 for the
single-key multi lookups, 1000 for the batch, 1 for the place-ID lookup —
and when at least 100 (resp. 1000) stored rows satisfy the predicate, the
lookup returns exactly the cap. -/
theorem C6_result_caps :
    (∀ db raw, (by_domain db raw).length ≤ 100) ∧
    (∀ db raw, (by_linkedin db raw).length ≤ 100) ∧
    (∀ db raw, (by_email db raw).length ≤ 100) ∧
    (∀ db raw, (by_google_id db raw).length ≤ 100) ∧
    (∀ db emails, (batch_by_emails db emails).length ≤ 1000) ∧
    (∀ db raw, (by_place_id db raw).toList.length ≤ 1) ∧
    (∀ db raw d, normalize_domain raw = some d →
      100 ≤ (db.filter (fun r => sqlIlike r.site ("%//" ++ d ++ "%") ||
        sqlIlike r.site ("%" ++ d ++ "%"))).length →
      (by_domain db raw).length = 100) ∧
    (∀ db raw e, normalize_email raw = some e →
      100 ≤ (db.filter (fun r => sqlEq r.email_1 e || sqlEq r.email_2 e ||
        sqlEq r.email_3 e)).length →
      (by_email db raw).length = 100) := by
  refine ⟨?_, ?_, ?_, ?_, ?_, ?_, ?_, ?_⟩
  · intro db raw
    unfold by_domain
    cases normalize_domain raw with
    | none => simp
    | some d => exact List.length_take_le 100 _
  · intro db raw
    unfold by_linkedin
    cases normalize_linkedin_url raw with
    | none => simp
    | some l => exact List.length_take_le 100 _
  · intro db raw
    unfold by_email
    cases normalize_email raw with
    | none => simp
    | some e => exact List.length_take_le 100 _
  · intro db raw
    unfold by_google_id
    cases normalize_google_id raw with
    | none => simp
    | some g => exact List.length_take_le 100 _
  · intro db emails
    simp only [batch_by_emails]
    split
    · simp
    · exact List.length_take_le 1000 _
  · intro db raw
    cases by_place_id db raw <;> simp
  · intro db raw d h hcount
    unfold by_domain
    rw [h, List.length_take]
    omega
  · intro db raw e h hcount
    unfold by_email
    rw [h, List.length_take]
    omega

/-- A row whose `site` contains `//example.com`, replicated to overflow the cap. -/
def capRec : BusinessRecord :=
  ⟨3, some "https://example.com/home", none, none, none, none, none, none, none, none⟩

/-- C6, witness: a store of 150 rows all matching the domain predicate —
the lookup returns exactly 100 of them. -/
theorem C6_witness :
    (by_domain (List.replicate 150 capRec) "example.com").length = 100 :=
  C6_result_caps.2.2.2.2.2.2.1 (List.replicate 150 capRec) "example.com"
    "example.com" (by decide)
    (by rw [List.filter_replicate]
        rw [if_pos (by decide)]
        simp)


/-! ## C7: totality of the normalizers -/

theorem normalizePlaceIdL_ne_nil {s p : List Char} (h : normalizePlaceIdL s = some p) :
    p ≠ [] := by
  simp only [normalizePlaceIdL] at h
  split at h
  · cases h
  split at h
  · cases h
  rename_i h2
  rw [Option.some.injEq] at h
  subst h
  simpa [List.isEmpty_iff] using h2

/-- C7.  Every normalizer is a total function into `Option`: a `None`
argument (and, in the source, any non-string — outside this typed
embedding) is rejected immediately, the empty string is rejected, and on
every input the result is either `none` or a nonempty canonical string —
no exception escapes (rejection is a value, and the one library call that
can raise, `urlparse`, is wrapped in `except` branches modelled as
`none`). -/
theorem C7_normalizers_total :
    (normalize_domain_opt none = none ∧ normalize_linkedin_url_opt none = none ∧
      normalize_email_opt none = none ∧ normalize_place_id_opt none = none ∧
      normalize_google_id_opt none = none) ∧
    (normalize_domain_opt (some "") = none ∧
      normalize_linkedin_url_opt (some "") = none ∧
      normalize_email_opt (some "") = none ∧
      normalize_place_id_opt (some "") = none ∧
      normalize_google_id_opt (some "") = none) ∧
    (∀ x : Option String,
      (normalize_domain_opt x = none ∨
        ∃ c, normalize_domain_opt x = some c ∧ 0 < c.length) ∧
      (normalize_linkedin_url_opt x = none ∨
        ∃ c, normalize_linkedin_url_opt x = some c ∧ 0 < c.length) ∧
      (normalize_email_opt x = none ∨
        ∃ c, normalize_email_opt x = some c ∧ 0 < c.length) ∧
      (normalize_place_id_opt x = none ∨
        ∃ c, normalize_place_id_opt x = some c ∧ 0 < c.length) ∧
      (normalize_google_id_opt x = none ∨
        ∃ c, normalize_google_id_opt x = some c ∧ 0 < c.length)) := by
  refine ⟨by decide, by decide, ?_⟩
  intro x
  cases x with
  | none => exact ⟨Or.inl rfl, Or.inl rfl, Or.inl rfl, Or.inl rfl, Or.inl rfl⟩
  | some s =>
    refine ⟨?_, ?_, ?_, ?_, ?_⟩
    · rcases hd : normalize_domain s with _ | c
      · exact Or.inl hd
      · refine Or.inr ⟨c, hd, ?_⟩
        obtain ⟨l, hl, he⟩ := Option.map_eq_some'.mp hd
        subst he
        have := domainRegexB_ne_nil (normalizeDomainL_some hl).1
        show 0 < l.length
        exact List.length_pos.mpr this
    · rcases hd : normalize_linkedin_url s with _ | c
      · exact Or.inl hd
      · refine Or.inr ⟨c, hd, ?_⟩
        obtain ⟨l, hl, he⟩ := Option.map_eq_some'.mp hd
        subst he
        obtain ⟨t, ht⟩ := List.isPrefixOf_iff_prefix.mp (normalizeLinkedinL_some hl).1
        show 0 < l.length
        rw [← ht]
        simp
    · rcases hd : normalize_email s with _ | c
      · exact Or.inl hd
      · refine Or.inr ⟨c, hd, ?_⟩
        obtain ⟨l, hl, he⟩ := Option.map_eq_some'.mp hd
        subst he
        have := emailRegexB_ne_nil (normalizeEmailL_some hl).1
        show 0 < l.length
        exact List.length_pos.mpr this
    · rcases hd : normalize_place_id s with _ | c
      · exact Or.inl hd
      · refine Or.inr ⟨c, hd, ?_⟩
        obtain ⟨l, hl, he⟩ := Option.map_eq_some'.mp hd
        subst he
        have := normalizePlaceIdL_ne_nil hl
        show 0 < l.length
        exact List.length_pos.mpr this
    · rcases hd : normalize_google_id s with _ | c
      · exact Or.inl hd
      · refine Or.inr ⟨c, hd, ?_⟩
        obtain ⟨l, hl, he⟩ := Option.map_eq_some'.mp hd
        subst he
        have := normalizePlaceIdL_ne_nil hl
        show 0 < l.length
        exact List.length_pos.mpr this

/-! ## C8: fixed query text, keys only as bound parameters -/

/-- C8.  Whenever a lookup issues a query, the SQL text handed to the driver
is that operation's fixed constant — independent of the raw or the canonical
key, which travels only in the parameter list. -/
theorem C8_sql_text_constant :
    (∀ raw q ps, by_domain_issued raw = some (q, ps) → q = domainSql) ∧
    (∀ raw q ps, by_linkedin_issued raw = some (q, ps) → q = linkedinSql) ∧
    (∀ raw q ps, by_place_id_issued raw = some (q, ps) → q = placeIdSql) ∧
    (∀ raw q ps, by_email_issued raw = some (q, ps) → q = emailSql) ∧
    (∀ raw q ps, by_google_id_issued raw = some (q, ps) → q = googleIdSql) ∧
    (∀ emails q ps, batch_by_emails_issued emails = some (q, ps) →
      q = batchEmailsSql) := by
  refine ⟨?_, ?_, ?_, ?_, ?_, ?_⟩
  · intro raw q ps h
    unfold by_domain_issued at h
    cases hn : normalize_domain raw <;> rw [hn] at h
    · cases h
    · rw [Option.some.injEq] at h
      exact (congrArg Prod.fst h).symm
  · intro raw q ps h
    unfold by_linkedin_issued at h
    cases hn : normalize_linkedin_url raw <;> rw [hn] at h
    · cases h
    · rw [Option.some.injEq] at h
      exact (congrArg Prod.fst h).symm
  · intro raw q ps h
    unfold by_place_id_issued at h
    cases hn : normalize_place_id raw <;> rw [hn] at h
    · cases h
    · rw [Option.some.injEq] at h
      exact (congrArg Prod.fst h).symm
  · intro raw q ps h
    unfold by_email_issued at h
    cases hn : normalize_email raw <;> rw [hn] at h
    · cases h
    · rw [Option.some.injEq] at h
      exact (congrArg Prod.fst h).symm
  · intro raw q ps h
    unfold by_google_id_issued at h
    cases hn : normalize_google_id raw <;> rw [hn] at h
    · cases h
    · rw [Option.some.injEq] at h
      exact (congrArg Prod.fst h).symm
  · intro emails q ps h
    simp only [batch_by_emails_issued] at h
    split at h
    · cases h
    · rw [Option.some.injEq] at h
      exact (congrArg Prod.fst h).symm

/-- C8, witness: each conjunct applied to a concrete key whose issued pair
is computed outright, pinning the query text to the operation's constant. -/
theorem C8_witness :
    domainSql = domainSql ∧ linkedinSql = linkedinSql ∧
    placeIdSql = placeIdSql ∧ emailSql = emailSql ∧
    googleIdSql = googleIdSql ∧ batchEmailsSql = batchEmailsSql :=
  ⟨C8_sql_text_constant.1 "example.com" domainSql
     ["%//example.com%", "%example.com%"] rfl,
   C8_sql_text_constant.2.1 "linkedin.com/in/a" linkedinSql
     ["%linkedin.com/in/a%"] rfl,
   C8_sql_text_constant.2.2.1 "PID" placeIdSql ["PID"] rfl,
   C8_sql_text_constant.2.2.2.1 "a@b.com" emailSql ["a@b.com"] rfl,
   C8_sql_text_constant.2.2.2.2.1 "G1" googleIdSql ["G1"] rfl,
   C8_sql_text_constant.2.2.2.2.2 ["a@b.com"] batchEmailsSql ["a@b.com"] rfl⟩

/-! ## C10: the LinkedIn check is only a prefix test on the host text -/

/-- C10.  `normalize_linkedin_url` only requires the scheme- and
`www.`-stripped text to *begin with* the twelve characters `linkedin.com`:
inputs whose host is a different domain — `linkedin.community/page`,
`linkedin.com.evil.com/x` — are accepted verbatim (lowercased,
trailing-slash-stripped) rather than rejected. -/
theorem C10_linkedin_startswith_only :
    normalize_linkedin_url "linkedin.community/page" =
      some "linkedin.community/page" ∧
    normalize_linkedin_url "linkedin.com.evil.com/x" =
      some "linkedin.com.evil.com/x" ∧
    normalize_linkedin_url "Linkedin.COMmunity/Page/" =
      some "linkedin.community/page" := by
  refine ⟨by decide, by decide, by decide⟩


/-! ## C9: enriched-contact listing and pagination -/

/-- C9.  `enriched_contacts` returns rows drawn from the store that have a
non-null primary email; the full enriched set is a permutation of the
filtered store, the returned slice is ascending in `id`, consecutive pages
(`limit=10, offset=0` then `limit=10, offset=10`) concatenate to the first
twenty rows of the enriched set, and — `id` being unique — the two pages
are disjoint. -/
theorem C9_enriched_pagination :
    (∀ db limit offset r, r ∈ enriched_contacts db limit offset →
      r ∈ db ∧ r.email_1.isSome = true) ∧
    (∀ db, List.Perm (enrichedAll db) (db.filter (fun r => r.email_1.isSome))) ∧
    (∀ db limit offset,
      List.Pairwise (fun a b => a.id ≤ b.id) (enriched_contacts db limit offset)) ∧
    (∀ db, enriched_contacts db 10 0 ++ enriched_contacts db 10 10 =
      (enrichedAll db).take 20) ∧
    (∀ db, (db.map (fun r => r.id)).Nodup →
      ∀ r ∈ enriched_contacts db 10 0, r ∉ enriched_contacts db 10 10) := by
  refine ⟨?_, ?_, ?_, ?_, ?_⟩
  · intro db limit offset r hr
    unfold enriched_contacts at hr
    have h1 : r ∈ sortById (db.filter (fun r => r.email_1.isSome)) :=
      List.drop_subset _ _ (List.take_subset _ _ hr)
    have h2 : r ∈ db.filter (fun r => r.email_1.isSome) :=
      ((sortById_perm _).mem_iff).mp h1
    rw [List.mem_filter] at h2
    exact h2
  · intro db
    exact sortById_perm _
  · intro db limit offset
    have hs := sortById_pairwise (db.filter (fun r => r.email_1.isSome))
    unfold enriched_contacts
    exact List.Pairwise.sublist
      ((List.take_sublist _ _).trans (List.drop_sublist _ _)) hs
  · intro db
    unfold enriched_contacts enrichedAll
    rw [List.drop_zero]
    have h20 : (20 : Nat) = 10 + 10 := rfl
    rw [h20, List.take_add]
  · intro db hnodup r hr0 hr10
    unfold enriched_contacts at hr0 hr10
    rw [List.drop_zero] at hr0
    have hfsub : List.Sublist
        ((db.filter (fun r => r.email_1.isSome)).map (fun r => r.id))
        (db.map (fun r => r.id)) := (List.filter_sublist _).map _
    have hfn : ((db.filter (fun r => r.email_1.isSome)).map
        (fun r => r.id)).Nodup := List.Nodup.sublist hfsub hnodup
    have hXn : ((sortById (db.filter (fun r => r.email_1.isSome))).map
        (fun r => r.id)).Nodup :=
      (List.Perm.nodup_iff ((sortById_perm _).map _)).mpr hfn
    have hsplit : (sortById (db.filter (fun r => r.email_1.isSome))).map
        (fun r => r.id) =
        ((sortById (db.filter (fun r => r.email_1.isSome))).take 10).map
          (fun r => r.id) ++
        ((sortById (db.filter (fun r => r.email_1.isSome))).drop 10).map
          (fun r => r.id) := by
      rw [← List.map_append, List.take_append_drop]
    rw [hsplit] at hXn
    have hdisj := (List.nodup_append.mp hXn).2.2
    exact hdisj (List.mem_map_of_mem _ hr0)
      (List.mem_map_of_mem _ (List.take_subset _ _ hr10))

/-- Twelve enriched rows (ids deliberately out of storage order) and two
rows without a primary email, to instantiate the pagination claim. -/
def pageDb : List BusinessRecord :=
  (List.range 14).map (fun i =>
    ⟨(i * 5 + 3) % 17, none, none, none, none, none, none,
      if i % 7 = 6 then none else some ("c" ++ toString i ++ "@x.io"),
      none, none⟩)

/-- C9, witness: on the concrete store, page 0 and page 1 concatenate to
the first twenty rows of the enriched set. -/
theorem C9_witness :
    enriched_contacts pageDb 10 0 ++ enriched_contacts pageDb 10 10 =
      (enrichedAll pageDb).take 20 :=
  C9_enriched_pagination.2.2.2.1 pageDb


/-! ## C3: domain normalization -/

theorem splitScheme_snd_subset {u : List Char} {c : Char}
    (h : c ∈ (splitScheme u).2) : c ∈ u := by
  simp only [splitScheme] at h
  split at h
  · exact List.drop_subset _ _ h
  · exact h

theorem splitNetloc_subset {u n a : List Char} {c : Char}
    (h : splitNetloc u = some (n, a)) (hc : c ∈ n ∨ c ∈ a) : c ∈ u := by
  simp only [splitNetloc] at h
  split at h
  · split at h
    · cases h
    · rw [Option.some.injEq, Prod.mk.injEq] at h
      obtain ⟨hn, ha⟩ := h
      subst hn
      subst ha
      rcases hc with hc | hc
      · exact List.drop_subset _ _ (List.takeWhile_subset _ hc)
      · exact List.drop_subset _ _ (List.drop_subset _ _ hc)
  · rw [Option.some.injEq, Prod.mk.injEq] at h
    obtain ⟨hn, ha⟩ := h
    subst hn
    subst ha
    rcases hc with hc | hc
    · cases hc
    · exact hc

theorem splitParams_subset {p0 : List Char} {c : Char}
    (h : c ∈ splitParams p0) : c ∈ p0 := by
  simp only [splitParams] at h
  split at h
  · split at h
    · rcases List.mem_append.mp h with hc | hc
      · rw [← List.reverse_reverse p0]
        rw [List.mem_reverse]
        exact List.dropWhile_subset _ (List.mem_reverse.mp hc)
      · have h2 := List.takeWhile_subset _ hc
        rw [← List.reverse_reverse p0, List.mem_reverse]
        exact List.takeWhile_subset _ (List.mem_reverse.mp h2)
    · exact h
  · exact List.takeWhile_subset _ h

theorem pyUrlparse_subset {u n p : List Char} {c : Char}
    (h : pyUrlparseNetlocPath u = some (n, p)) (hc : c ∈ n ∨ c ∈ p) : c ∈ u := by
  simp only [pyUrlparseNetlocPath] at h
  rcases hs : splitNetloc (splitScheme (u.filter (fun c => !isUnsafeUrlChar c))).2
    with _ | ⟨netloc, u3⟩
  · rw [hs] at h
    cases h
  · rw [hs] at h
    rw [Option.some.injEq, Prod.mk.injEq] at h
    obtain ⟨hn, hp⟩ := h
    subst hn
    have hfil : ∀ x, x ∈ (splitScheme (u.filter (fun c => !isUnsafeUrlChar c))).2 →
        x ∈ u := fun x hx =>
      List.mem_of_mem_filter (splitScheme_snd_subset hx)
    rcases hc with hc | hc
    · exact hfil c (splitNetloc_subset hs (Or.inl hc))
    · subst hp
      have hc3 : c ∈ u3 := by
        split at hc
        · exact List.takeWhile_subset _ (splitParams_subset hc)
        · exact List.takeWhile_subset _ hc
      exact hfil c (splitNetloc_subset hs (Or.inr hc3))

theorem mem_wwwStrip {l : List Char} {c : Char} (h : c ∈ wwwStrip l) : c ∈ l := by
  unfold wwwStrip at h
  split at h
  · exact List.drop_subset _ _ h
  · exact h

theorem mem_pyRStrip_subset {p : Char → Bool} {l : List Char} {c : Char}
    (h : c ∈ pyRStrip p l) : c ∈ l :=
  (pyRStrip_isPre p l).subset h

theorem mem_pyStrip_subset {l : List Char} {c : Char} (h : c ∈ pyStrip l) : c ∈ l :=
  List.dropWhile_subset _ (mem_pyRStrip_subset h)

/-- Success of `normalize_domain` requires a dot somewhere in the raw input:
every step of the pipeline only selects characters of its input. -/
theorem normalizeDomainL_dot_source {s : List Char}
    (hnd : '.' ∉ s) : normalizeDomainL s = none := by
  rcases hr : normalizeDomainL s with _ | d
  · rfl
  · exfalso
    apply hnd
    simp only [normalizeDomainL] at hr
    split at hr
    · cases hr
    split at hr
    · cases hr
    rcases hb : (if containsSeq "://".data (pyStrip s) = true then
        (pyUrlparseNetlocPath (pyStrip s)).map
          (fun np => if np.1.isEmpty = true then np.2 else np.1)
      else some (pyStrip s)) with _ | d1
    · rw [hb] at hr
      cases hr
    · rw [hb] at hr
      rw [Option.some_bind] at hr
      -- a dot survives into d1, hence into pyStrip s, hence into s
      have hd1 : '.' ∈ d1 := by
        simp only [domainFinish] at hr
        split at hr
        · cases hr
        rename_i hdot5
        simp only [Bool.not_eq_true, Bool.not_eq_false'] at hdot5
        have h5 := charContains_iff.mp hdot5
        have h4 := mem_pyRStrip_subset h5
        have h3 := mem_wwwStrip h4
        exact List.takeWhile_subset _ (List.takeWhile_subset _ h3)
      have hd0 : '.' ∈ pyStrip s := by
        split at hb
        · rcases hu : pyUrlparseNetlocPath (pyStrip s) with _ | ⟨netloc, path⟩
          · rw [hu] at hb
            cases hb
          · rw [hu] at hb
            simp only [Option.map_some', Option.some.injEq] at hb
            apply pyUrlparse_subset hu
            subst hb
            split at hd1
            · exact Or.inr hd1
            · exact Or.inl hd1
        · rw [Option.some.injEq] at hb
          subst hb
          exact hd1
      exact mem_pyStrip_subset hd0

/-- C3, counterexample.  The claim says domain normalization strips the
userinfo and keeps the host, so `"https://user@example.com/path"` would
canonicalize to `"example.com"`; the code never removes userinfo — the
netloc `user@example.com` fails the label validation (`@` is not a label
character) and the input is rejected. -/
theorem C3_counterexample :
    normalize_domain "https://user@example.com/path" = none ∧
    normalize_domain "https://user@example.com/path" ≠ some "example.com" := by
  refine ⟨by decide, by decide⟩

/-- C3, amended.  Domain normalization strips the scheme, keeps only the
host (dropping port, path, query, fragment), strips one leading `www.`
case-insensitively and trailing dots, lowercases, and accepts exactly the
DNS-label sequences with at least one dot — but a URL carrying userinfo is
rejected (the `@` fails label validation), not stripped.  Conjuncts: the
spec's example; empty and whitespace-only inputs rejected; dotless inputs
rejected; and every accepted value is a lowercase, dotted, validated label
sequence. -/
theorem C3_domain_normalization_amended :
    normalize_domain "https://www.example.com:8080/path" = some "example.com" ∧
    normalize_domain "" = none ∧
    normalize_domain "   " = none ∧
    (∀ s : String, '.' ∉ s.data → normalize_domain s = none) ∧
    (∀ s d, normalize_domain s = some d → domainRegexB d.data = true ∧
      '.' ∈ d.data ∧ pyLower d.data = d.data) := by
  refine ⟨by decide, by decide, by decide, ?_, ?_⟩
  · intro s hnd
    unfold normalize_domain
    rw [normalizeDomainL_dot_source hnd]
    rfl
  · intro s d h
    obtain ⟨l, hl, he⟩ := Option.map_eq_some'.mp h
    subst he
    obtain ⟨hreg, hdot⟩ := normalizeDomainL_some hl
    refine ⟨hreg, hdot, ?_⟩
    apply pyLower_eq_self_of_all
    intro c hc
    apply lowerChar_eq_self
    have hr := domainRegexB_ranges hreg c hc
    omega

/-- C3, witness: the dotless-rejection and soundness conjuncts applied at
concrete inputs. -/
theorem C3_witness :
    normalize_domain "localhost" = none ∧
    (domainRegexB "sub.example.com".data = true ∧ '.' ∈ "sub.example.com".data ∧
      pyLower "sub.example.com".data = "sub.example.com".data) :=
  ⟨C3_domain_normalization_amended.2.2.2.1 "localhost" (by decide),
   C3_domain_normalization_amended.2.2.2.2 "SUB.example.com" "sub.example.com"
     (by decide)⟩


/-! ## C4: email normalization -/

theorem splitOnDot_cons_dot (rest : List Char) :
    splitOnDot ('.' :: rest) = [] :: splitOnDot rest := by
  simp [splitOnDot]

theorem splitOnDot_cons_ne {a : Char} (ha : a ≠ '.') (rest : List Char) :
    splitOnDot (a :: rest) =
      match splitOnDot rest with
      | [] => [[a]]
      | h :: t => (a :: h) :: t := by
  simp [splitOnDot, ha]

theorem splitOnDot_append (A B : List Char) :
    splitOnDot (A ++ '.' :: B) = splitOnDot A ++ splitOnDot B := by
  induction A with
  | nil =>
    rw [List.nil_append, splitOnDot_cons_dot]
    rfl
  | cons a rest ih =>
    by_cases ha : a = '.'
    · subst ha
      rw [List.cons_append, splitOnDot_cons_dot, splitOnDot_cons_dot, ih]
      rfl
    · rcases hs : splitOnDot rest with _ | ⟨h0, t0⟩
      · exact absurd hs (splitOnDot_ne_nil rest)
      · rw [List.cons_append, splitOnDot_cons_ne ha, splitOnDot_cons_ne ha, ih, hs]
        simp

theorem splitOnDot_no_dot {B : List Char} (h : '.' ∉ B) : splitOnDot B = [B] := by
  induction B with
  | nil => rfl
  | cons b rest ih =>
    have hb : b ≠ '.' := fun he => h (he ▸ List.mem_cons_self b rest)
    simp only [splitOnDot, if_neg hb,
      ih (fun hm => h (List.mem_cons_of_mem b hm))]

theorem splitOnDot_eq_nilpiece_iff {l : List Char} :
    splitOnDot l = [[]] ↔ l = [] := by
  constructor
  · intro h
    cases l with
    | nil => rfl
    | cons c rest =>
      unfold splitOnDot at h
      split at h
      · rw [List.cons.injEq] at h
        exact absurd h.2 (splitOnDot_ne_nil rest)
      · rcases hs : splitOnDot rest with _ | ⟨h0, t0⟩
        · exact absurd hs (splitOnDot_ne_nil rest)
        · rw [hs] at h
          rw [List.cons.injEq] at h
          exact absurd h.1 (by simp)
  · intro h
    subst h
    rfl

theorem mem_of_mem_splitOnDot {l : List Char} {c : Char} :
    ∀ {piece : List Char}, piece ∈ splitOnDot l → c ∈ piece →
      c ∈ l ∧ c ≠ '.' := by
  induction l with
  | nil =>
    intro piece hp hc
    simp [splitOnDot] at hp
    subst hp
    cases hc
  | cons a rest ih =>
    intro piece hp hc
    by_cases ha : a = '.'
    · subst ha
      rw [splitOnDot_cons_dot] at hp
      rcases List.mem_cons.mp hp with h | h
      · subst h
        cases hc
      · obtain ⟨h1, h2⟩ := ih h hc
        exact ⟨List.mem_cons_of_mem _ h1, h2⟩
    · rcases hs : splitOnDot rest with _ | ⟨h0, t0⟩
      · exact absurd hs (splitOnDot_ne_nil rest)
      · rw [splitOnDot_cons_ne ha, hs] at hp
        have hp2 : piece ∈ (a :: h0) :: t0 := hp
        rcases List.mem_cons.mp hp2 with h | h
        · subst h
          rcases List.mem_cons.mp hc with h2 | h2
          · subst h2
            exact ⟨List.mem_cons_self _ _, ha⟩
          · obtain ⟨h3, h4⟩ := ih (hs ▸ List.mem_cons_self h0 t0) h2
            exact ⟨List.mem_cons_of_mem _ h3, h4⟩
        · obtain ⟨h3, h4⟩ := ih (hs ▸ List.mem_cons_of_mem h0 h) hc
          exact ⟨List.mem_cons_of_mem _ h3, h4⟩

/-- C4's claim grammar, read literally: `local-part@host.tld` with an ASCII
local part `[a-z0-9._%+-]+` before the first `@` and a host that is a
sequence of dot-separated labels — nonempty pieces — whose last label, the
TLD, is at least two lowercase letters (after case folding). -/
def claimEmailShape (l : List Char) : Bool :=
  let localPart := l.takeWhile (· ≠ '@')
  match l.dropWhile (· ≠ '@') with
  | '@' :: host =>
    !localPart.isEmpty && localPart.all emailLocalChar &&
      2 ≤ (splitOnDot host).length &&
      (splitOnDot host).all (fun lab => !lab.isEmpty) &&
      2 ≤ ((splitOnDot host).getLastD []).length &&
      ((splitOnDot host).getLastD []).all isAsciiLowerAlpha
  | _ => false

/-- C4, counterexample.  The code's regex host `[a-z0-9.-]+\.[a-z]{2,}`
accepts empty labels: `"a@..com"` is canonicalized, not rejected, although
its host `..com` is not a sequence of nonempty dot-separated labels as the
claim describes. -/
theorem C4_counterexample :
    normalize_email "a@..com" = some "a@..com" ∧
    claimEmailShape "a@..com".data = false := by
  refine ⟨by decide, by decide⟩

theorem normalizeEmailL_complete {s : List Char}
    (h : emailRegexB (pyLower (pyStrip s)) = true) :
    normalizeEmailL s = some (pyLower (pyStrip s)) := by
  have hne2 : (pyStrip s).isEmpty = false := by
    rcases hx : pyStrip s with _ | ⟨a, t⟩
    · exfalso
      apply emailRegexB_ne_nil h
      rw [hx]
      rfl
    · rfl
  have hne1 : s.isEmpty = false := by
    rcases hx : s with _ | ⟨a, t⟩
    · exfalso
      apply emailRegexB_ne_nil h
      rw [hx]
      rfl
    · rfl
  simp only [normalizeEmailL, hne1, hne2, Bool.false_eq_true, if_false, h, if_true]

/-- C4, amended.  Email normalization trims, lowercases, and accepts exactly
the strings of shape `local-part@host.tld` with local part `[a-z0-9._%+-]+`
and host a nonempty `[a-z0-9.-]` text followed by a dot and a TLD of at
least two letters — dot-separated labels other than the TLD may be empty or
hyphen-only.  The soundness conjunct exhibits every accepted value in the
claim's label vocabulary; the completeness conjunct states that everything
matching the grammar after trim-and-lowercase is accepted verbatim. -/
theorem C4_email_normalization_amended :
    normalize_email "John.Doe@Example.COM" = some "john.doe@example.com" ∧
    normalize_email "not-an-email" = none ∧
    normalize_email "" = none ∧
    (∀ s e, normalize_email s = some e →
      e.data = pyLower (pyStrip s.data) ∧
      ∃ localPart host, e.data = localPart ++ '@' :: host ∧ localPart ≠ [] ∧
        (∀ c ∈ localPart, emailLocalChar c = true) ∧
        2 ≤ (splitOnDot host).length ∧
        2 ≤ ((splitOnDot host).getLastD []).length ∧
        (∀ c ∈ (splitOnDot host).getLastD [], isAsciiLowerAlpha c = true) ∧
        (∀ lab ∈ (splitOnDot host).dropLast, ∀ c ∈ lab,
          emailHostChar c = true ∧ c ≠ '.') ∧
        (splitOnDot host).dropLast ≠ [[]]) ∧
    (∀ s : String, emailRegexB (pyLower (pyStrip s.data)) = true →
      normalize_email s = some (String.mk (pyLower (pyStrip s.data)))) := by
  refine ⟨by decide, by decide, by decide, ?_, ?_⟩
  · intro s e h
    obtain ⟨l, hl, he⟩ := Option.map_eq_some'.mp h
    subst he
    have hdata : (String.mk l).data = l := rfl
    rw [hdata]
    have hval : l = pyLower (pyStrip s.data) := by
      simp only [normalizeEmailL] at hl
      split at hl
      · cases hl
      split at hl
      · cases hl
      split at hl
      · rw [Option.some.injEq] at hl
        exact hl.symm
      · cases hl
    refine ⟨hval, ?_⟩
    obtain ⟨hreg, _⟩ := normalizeEmailL_some hl
    obtain ⟨localPart, host, hsplit, hlne, hlocal, hhost⟩ := emailRegexB_decomp hreg
    obtain ⟨pre, tld, hhsplit, hprene, hpre, htldlen, htld⟩ := emailHostB_decomp hhost
    have hnodot : '.' ∉ tld := by
      intro hd
      have := isAsciiLowerAlpha_iff.mp (htld '.' hd)
      have h46 : ('.' : Char).toNat = 46 := rfl
      omega
    have hlabels : splitOnDot host = splitOnDot pre ++ [tld] := by
      rw [hhsplit, splitOnDot_append, splitOnDot_no_dot hnodot]
    refine ⟨localPart, host, hsplit, hlne, hlocal, ?_, ?_, ?_, ?_, ?_⟩
    · rw [hlabels, List.length_append]
      have := splitOnDot_ne_nil pre
      have := List.length_pos.mpr this
      simp
      omega
    · rw [hlabels]
      rw [List.getLastD_eq_getLast?, List.getLast?_concat]
      exact htldlen
    · rw [hlabels, List.getLastD_eq_getLast?, List.getLast?_concat]
      intro c hc
      exact htld c hc
    · rw [hlabels, List.dropLast_concat]
      intro lab hlab c hc
      obtain ⟨h1, h2⟩ := mem_of_mem_splitOnDot hlab hc
      exact ⟨hpre c h1, h2⟩
    · rw [hlabels, List.dropLast_concat]
      intro hx
      exact hprene (splitOnDot_eq_nilpiece_iff.mp hx)
  · intro s h
    unfold normalize_email
    rw [normalizeEmailL_complete h]
    rfl

/-- C4, witness: the soundness and completeness conjuncts applied at
concrete addresses, hypotheses discharged by computation. -/
theorem C4_witness :
    normalize_email "Ops@Mail.Example.ORG" =
      some (String.mk (pyLower (pyStrip "Ops@Mail.Example.ORG".data))) ∧
    ("x-1@a.io".data = pyLower (pyStrip " X-1@A.IO ".data) ∧
      ∃ localPart host, "x-1@a.io".data = localPart ++ '@' :: host ∧
        localPart ≠ [] ∧ (∀ c ∈ localPart, emailLocalChar c = true) ∧
        2 ≤ (splitOnDot host).length ∧
        2 ≤ ((splitOnDot host).getLastD []).length ∧
        (∀ c ∈ (splitOnDot host).getLastD [], isAsciiLowerAlpha c = true) ∧
        (∀ lab ∈ (splitOnDot host).dropLast, ∀ c ∈ lab,
          emailHostChar c = true ∧ c ≠ '.') ∧
        (splitOnDot host).dropLast ≠ [[]]) :=
  ⟨C4_email_normalization_amended.2.2.2.2 "Ops@Mail.Example.ORG" (by decide),
   C4_email_normalization_amended.2.2.2.1 " X-1@A.IO " "x-1@a.io" (by decide)⟩


end Outscraper

